import Mathlib

/-!
Verification of the procurement calculator and schedulers.

Shallow embedding of:
  * src/calculator/logic.py        (lenient numeric parsing, offer computation)
  * src/calculator/tiered_columns.py (tier resolution)
  * src/streamlit_app.py           (dependency resolution, backward / forward schedulers)

Modelling conventions:
  * spreadsheet cell values are `Cell` (absent / numeric / text); Python floats
    are idealised as exact rationals `ℚ`;
  * calendar dates and timedeltas are day numbers in `ℤ`
    (`date - timedelta(days = k)` becomes integer subtraction);
  * Python dicts become association lists (first binding wins, as a dict with
    unique keys) or total functions when only `.get` with a default is used;
  * the unbounded-but-terminating Python recursions (DFS over dependents,
    transitive dependency search) are modelled with an explicit fuel that is
    large enough that the fuel-exhaustion branch is unreachable.
-/

namespace Prev

/-! ### Cells and lenient numeric parsing (src/calculator/logic.py lines 12-39) -/

/-- A spreadsheet cell value: Python `None`, a number, or free text. -/
inductive Cell where
  | none : Cell
  | num : ℚ → Cell
  | str : String → Cell
deriving DecidableEq, Repr

/-- The structure of one match of the regex `[-+]?\d+(?:[\.,]\d+)?`:
optional sign, integer digits, optional fractional digits. -/
structure NumToken where
  neg : Bool
  intDigits : List Char
  fracDigits : List Char
deriving DecidableEq, Repr

/-- Try to match `[-+]?\d+(?:[\.,]\d+)?` anchored at the start of `cs`
(greedy digit runs, optional fractional group needing at least one digit). -/
def matchNumAt (cs : List Char) : Option NumToken :=
  let sgn : Bool × List Char :=
    match cs with
    | '-' :: r => (true, r)
    | '+' :: r => (false, r)
    | r => (false, r)
  let ds := sgn.2.span Char.isDigit
  if ds.1 = [] then Option.none
  else
    match ds.2 with
    | c :: r3 =>
      if c = '.' ∨ c = ',' then
        let fs := r3.span Char.isDigit
        if fs.1 = [] then some ⟨sgn.1, ds.1, []⟩ else some ⟨sgn.1, ds.1, fs.1⟩
      else some ⟨sgn.1, ds.1, []⟩
    | [] => some ⟨sgn.1, ds.1, []⟩

/-- `re.search`: the leftmost match of the number regex, scanning positions
left to right. -/
def findNumToken : List Char → Option NumToken
  | [] => matchNumAt []
  | c :: rest =>
    match matchNumAt (c :: rest) with
    | some t => some t
    | Option.none => findNumToken rest

/-- Value of a digit run, most significant first. -/
def digitsVal (ds : List Char) : ℕ :=
  ds.foldl (fun a c => 10 * a + (c.toNat - '0'.toNat)) 0

/-- Exact value of a matched token, `float(token.replace(",", "."))`
idealised over `ℚ`. -/
def tokenValue (t : NumToken) : ℚ :=
  let v : ℚ := (digitsVal t.intDigits : ℚ) +
    (digitsVal t.fracDigits : ℚ) / ((10 : ℚ) ^ t.fracDigits.length)
  if t.neg then -v else v

/-- Python `int()` truncation toward zero on a rational. -/
def truncQ (q : ℚ) : ℤ := if 0 ≤ q then ⌊q⌋ else ⌈q⌉

/-- `_to_float(value, default)`: numeric cells round-trip through `str`
unchanged; strings go through the first-token regex with `,` read as a
decimal point; anything unparsable resolves to the default. -/
def to_float (value : Cell) (default : ℚ) : ℚ :=
  match value with
  | Cell.none => default
  | Cell.num q => q
  | Cell.str s =>
    match findNumToken s.data with
    | some t => tokenValue t
    | Option.none => default

/-- `_to_int(value, default)` = `int(float(token))`, truncating toward zero. -/
def to_int (value : Cell) (default : ℤ) : ℤ :=
  match value with
  | Cell.none => default
  | Cell.num q => truncQ q
  | Cell.str s =>
    match findNumToken s.data with
    | some t => truncQ (tokenValue t)
    | Option.none => default

/-! ### Rows (pandas `Series` with role-based lookup) -/

/-- A component row: association list column-name to cell (`row.index` is the
list of keys, `row.get(col, default)` the lookup). -/
def Row := List (String × Cell)

/-- `row.get(col, default)`. -/
def rowGet (row : Row) (col : String) (default : Cell) : Cell :=
  match row.find? (fun p => p.1 == col) with
  | some p => p.2
  | Option.none => default

/-- `row.index`. -/
def rowIndex (row : Row) : List String :=
  row.map Prod.fst

/-! ### Tier resolution (src/calculator/tiered_columns.py lines 44-58) -/

/-- The selection loop of `pick_tier_value`: walk the (sorted) breakpoints,
remember the last one `≤ requested`, break at the first larger one. -/
def selectTier (requested : ℤ) : List ℤ → Option ℤ
  | [] => Option.none
  | q :: rest =>
    if q ≤ requested then some ((selectTier requested rest).getD q)
    else Option.none

/-- Python dict lookup `tiers[k]` on the association-list model (first
binding wins; `""` stands for the impossible missing-key case). -/
def dictGet (tiers : List (ℤ × String)) (k : ℤ) : String :=
  match tiers.find? (fun p => p.1 == k) with
  | some p => p.2
  | Option.none => ""

/-- `pick_tier_value(row, tiers, requested_qty, to_float)`: empty table gives
`zero`; otherwise select the largest breakpoint ≤ requested quantity, falling
back to the smallest breakpoint, and convert that column's cell. -/
def pick_tier_value {α : Type} (row : Row) (tiers : List (ℤ × String))
    (requested_qty : ℤ) (conv : Cell → α) (zero : α) : α :=
  if tiers = [] then zero
  else
    let sorted_qtys := List.insertionSort (fun a b : ℤ => a ≤ b) (tiers.map Prod.fst)
    let selected_tier := (selectTier requested_qty sorted_qtys).getD (sorted_qtys.headD 0)
    conv (rowGet row (dictGet tiers selected_tier) (Cell.num 0))

/-! ### Offer computation (src/calculator/logic.py lines 42-145) -/

/-- `_ceil_to_lot(quantity, lot_size)`; Python `//` is floor division. -/
def ceil_to_lot (quantity lot_size : ℤ) : ℤ :=
  if lot_size ≤ 1 then quantity
  else ((quantity + lot_size - 1).fdiv lot_size) * lot_size

/-- The `pricing` section of the configuration; `None`/absent entries model
the `cfg.get(key, 0) or 0` fallbacks (a falsy float is exactly `0`). -/
structure PricingCfg where
  handling_flat : Option ℚ
  handling_percent : Option ℚ

/-- The configuration object passed to `compute_offer`. -/
structure Config where
  pricing : PricingCfg

/-- `_apply_pricing_overheads(amount, pricing_cfg)`. -/
def apply_pricing_overheads (amount : ℚ) (pricing_cfg : PricingCfg) : ℚ :=
  let handling_flat := pricing_cfg.handling_flat.getD 0
  let handling_percent := pricing_cfg.handling_percent.getD 0
  (amount + handling_flat) * (1 + handling_percent / 100)

/-- The column-role mapping consumed by `_prepare_fields`; a missing role is
the default `{}` or `""` of `mapping.get`. -/
structure Mapping where
  tiers_production : List (ℤ × String)
  tiers_air_transport : List (ℤ × String)
  tiers_sea_transport : List (ℤ × String)
  tiers_production_time : List (ℤ × String)
  moq : String
  lot_size : String
  currency : String
  air_transport_time_column : String
  sea_transport_time_column : String

/-- Python `str(cell)` as far as the currency field needs it. -/
def cellStr : Cell → String
  | Cell.none => "None"
  | Cell.num q => toString q
  | Cell.str s => s

/-- The dictionary built by `_prepare_fields`. -/
structure Fields where
  production_unit_cost : ℚ
  air_transport_unit_cost : ℚ
  sea_transport_unit_cost : ℚ
  unit_price_air : ℚ
  unit_price_sea : ℚ
  moq : ℤ
  lot_size : ℤ
  currency : String
  lead_time_air_days : ℤ
  lead_time_sea_days : ℤ

/-- `_prepare_fields(row, mapping, requested_qty)` (logic.py lines 56-97);
`x or 1` on an int is modelled by `if x = 0 then 1 else x`. -/
def prepare_fields (row : Row) (mapping : Mapping) (requested_qty : ℤ) : Fields :=
  let prod_cost := pick_tier_value row mapping.tiers_production requested_qty
    (fun c => to_float c 0) 0
  let air_tr_cost := pick_tier_value row mapping.tiers_air_transport requested_qty
    (fun c => to_float c 0) 0
  let sea_tr_cost := pick_tier_value row mapping.tiers_sea_transport requested_qty
    (fun c => to_float c 0) 0
  let moqRaw := to_int (rowGet row mapping.moq (Cell.num 1)) 0
  let lotRaw := to_int (rowGet row mapping.lot_size (Cell.num 1)) 0
  let currencyRaw := (cellStr (rowGet row mapping.currency (Cell.str ""))).trim
  let prod_time_weeks : ℤ :=
    if mapping.tiers_production_time ≠ [] then
      pick_tier_value row mapping.tiers_production_time requested_qty
        (fun c => to_int c 0) 0
    else 0
  let air_tr_time_weeks : ℤ :=
    if mapping.air_transport_time_column ≠ "" ∧
        mapping.air_transport_time_column ∈ rowIndex row then
      to_int (rowGet row mapping.air_transport_time_column (Cell.num 0)) 0
    else 0
  let sea_tr_time_weeks : ℤ :=
    if mapping.sea_transport_time_column ≠ "" ∧
        mapping.sea_transport_time_column ∈ rowIndex row then
      to_int (rowGet row mapping.sea_transport_time_column (Cell.num 0)) 0
    else 0
  { production_unit_cost := prod_cost
    air_transport_unit_cost := air_tr_cost
    sea_transport_unit_cost := sea_tr_cost
    unit_price_air := prod_cost + air_tr_cost
    unit_price_sea := prod_cost + sea_tr_cost
    moq := max 1 (if moqRaw = 0 then 1 else moqRaw)
    lot_size := max 1 (if lotRaw = 0 then 1 else lotRaw)
    currency := if currencyRaw = "" then "EUR" else currencyRaw
    lead_time_air_days := (prod_time_weeks + air_tr_time_weeks) * 7
    lead_time_sea_days := (prod_time_weeks + sea_tr_time_weeks) * 7 }

/-- One transport mode's slice of the computed offer. -/
structure ModeOffer where
  unit_price : ℚ
  production_unit_cost : ℚ
  transport_unit_cost : ℚ
  production_total_pre_overhead : ℚ
  transport_total_pre_overhead : ℚ
  lead_time_days : ℤ
  total_cost : ℚ
  order_by : ℤ

/-- The result of `compute_offer`. -/
structure Offer where
  requested_qty : ℤ
  qty_ordered : ℤ
  currency : String
  air : ModeOffer
  sea : ModeOffer

/-- `compute_offer(row, requested_qty, target_date, mapping, config)`
(logic.py lines 100-145). -/
def compute_offer (row : Row) (requested_qty : ℤ) (target_date : ℤ)
    (mapping : Mapping) (config : Config) : Offer :=
  let fields := prepare_fields row mapping requested_qty
  let pricing_cfg := config.pricing
  let qty_after_moq := max requested_qty fields.moq
  let qty_ordered := ceil_to_lot qty_after_moq fields.lot_size
  let air_cost := apply_pricing_overheads ((qty_ordered : ℚ) * fields.unit_price_air) pricing_cfg
  let sea_cost := apply_pricing_overheads ((qty_ordered : ℚ) * fields.unit_price_sea) pricing_cfg
  let prod_total := (qty_ordered : ℚ) * fields.production_unit_cost
  let air_tr_total := (qty_ordered : ℚ) * fields.air_transport_unit_cost
  let sea_tr_total := (qty_ordered : ℚ) * fields.sea_transport_unit_cost
  let air_order_by := target_date - fields.lead_time_air_days
  let sea_order_by := target_date - fields.lead_time_sea_days
  { requested_qty := requested_qty
    qty_ordered := qty_ordered
    currency := fields.currency
    air :=
      { unit_price := fields.unit_price_air
        production_unit_cost := fields.production_unit_cost
        transport_unit_cost := fields.air_transport_unit_cost
        production_total_pre_overhead := prod_total
        transport_total_pre_overhead := air_tr_total
        lead_time_days := fields.lead_time_air_days
        total_cost := air_cost
        order_by := air_order_by }
    sea :=
      { unit_price := fields.unit_price_sea
        production_unit_cost := fields.production_unit_cost
        transport_unit_cost := fields.sea_transport_unit_cost
        production_total_pre_overhead := prod_total
        transport_total_pre_overhead := sea_tr_total
        lead_time_days := fields.lead_time_sea_days
        total_cost := sea_cost
        order_by := sea_order_by } }

/-- Example inputs for the tier-resolution witness: the spec's table
`{200: 5.50, 1000: 5.00, 5000: 4.50}`. -/
def tiersEx : List (ℤ × String) := [(200, "c200"), (1000, "c1000"), (5000, "c5000")]

/-- Row carrying the example tier values. -/
def rowTiersEx : Row :=
  [("c200", Cell.num (11/2)), ("c1000", Cell.num 5), ("c5000", Cell.num (9/2))]

/-- Concrete inputs for the C2 witness: a row with MOQ 100 and lot size 50. -/
def rowMoqEx : Row := [("MOQ", Cell.num 100), ("LOT", Cell.num 50)]

/-- Mapping binding only the MOQ and lot-size roles. -/
def mapMoqEx : Mapping :=
  { tiers_production := []
    tiers_air_transport := []
    tiers_sea_transport := []
    tiers_production_time := []
    moq := "MOQ"
    lot_size := "LOT"
    currency := ""
    air_transport_time_column := ""
    sea_transport_time_column := "" }

/-- Empty pricing configuration for examples. -/
def cfgEx : Config := ⟨⟨Option.none, Option.none⟩⟩

/-- Row for the C4 witness: tiered production time resolving to 2 weeks and a
dedicated air-transport-time column holding 1 week. -/
def rowLeadEx : Row := [("PTIME", Cell.num 2), ("ATIME", Cell.num 1)]

/-- Mapping for the C4 witness. -/
def mapLeadEx : Mapping :=
  { tiers_production := []
    tiers_air_transport := []
    tiers_sea_transport := []
    tiers_production_time := [(1, "PTIME")]
    moq := ""
    lot_size := ""
    currency := ""
    air_transport_time_column := "ATIME"
    sea_transport_time_column := "" }

/-- Mapping binding the MOQ and lot-size roles for the clamping examples. -/
def mapClampEx : Mapping :=
  { tiers_production := []
    tiers_air_transport := []
    tiers_sea_transport := []
    tiers_production_time := []
    moq := "MOQ"
    lot_size := "LOT"
    currency := ""
    air_transport_time_column := ""
    sea_transport_time_column := "" }

/-- Row whose MOQ and lot-size cells are absent. -/
def rowClampMissing : Row := []

/-- Row whose MOQ and lot-size cells are zero. -/
def rowClampZero : Row := [("MOQ", Cell.num 0), ("LOT", Cell.num 0)]

/-- Row whose MOQ and lot-size cells are negative. -/
def rowClampNeg : Row := [("MOQ", Cell.num (-7)), ("LOT", Cell.num (-2))]

/-- Row whose MOQ and lot-size cells are unparsable text. -/
def rowClampBad : Row := [("MOQ", Cell.str "N/A"), ("LOT", Cell.str "soon")]

/-! ### Schedulers (src/streamlit_app.py lines 186-327)

Dates are day numbers in `ℤ`; `durations`, `lead_days` model `dict.get(x, 0)`
as total functions; `start_by_comp` models `dict.get(comp)` (`None` when the
component has no chosen order date); `deps_map` is the dependency dict as an
association list (iterated in list order where Python iterates the dict). -/

/-- One row of a computed schedule. -/
structure ScheduleRow where
  composant : String
  start : ℤ
  finish : ℤ
deriving DecidableEq, Repr

/-- `deps_map.get(c, []) or []`. -/
def depsOf (deps_map : List (String × List String)) (c : String) : List String :=
  match deps_map.find? (fun p => p.1 == c) with
  | some p => p.2
  | Option.none => []

/-- The dependents (reverse-edge) lists built by `_backward_schedule_with_deps`
lines 207-215: `d ↦ [comp | comp ∈ selected, d ∈ deps(comp) ∩ selected]`,
one entry per occurrence, in dict-iteration order. -/
def dependentsOf (selected : List String) (deps_map : List (String × List String))
    (d : String) : List String :=
  deps_map.foldl
    (fun acc p =>
      if p.1 ∈ selected then
        acc ++ (p.2.filter (fun x => decide (x ∈ selected) && decide (x = d))).map
          (fun _ => p.1)
      else acc)
    []

/-- The recursive `dfs` of the backward scheduler (lines 221-227) over a
`(visited, order)` state, with fuel standing in for the unbounded Python
recursion; with fuel > number of unvisited reachable nodes the zero-fuel
branch is unreachable. -/
def dfsAux (dep : String → List String) : ℕ → List String × List String → String →
    List String × List String
  | 0, st, _ => st
  | f + 1, st, c =>
    if c ∈ st.1 then st
    else
      let st2 := (dep c).foldl (fun s n => dfsAux dep f s n) (c :: st.1, st.2)
      (st2.1, st2.2 ++ [c])

/-- The traversal order produced by the loop `for c in components: dfs(c)`
(lines 228-229). -/
def dfsOrder (dep : String → List String) (components : List String) : List String :=
  (components.foldl (fun st c => dfsAux dep (components.length + 1) st c) ([], [])).2

/-- Lookup in an association list used for the `finish`/`starts` dicts. -/
def lookupA (l : List (String × ℤ)) (k : String) : Option ℤ :=
  (l.find? (fun p => p.1 == k)).map Prod.snd

/-- Dict assignment `d[k] = v` (replaces any previous binding). -/
def updAssoc (l : List (String × ℤ)) (k : String) (v : ℤ) : List (String × ℤ) :=
  l.filter (fun p => !(p.1 == k)) ++ [(k, v)]

/-- The backward pass computing `finish` (lines 231-252): sinks finish at the
milestone (or at the fixed end for the designated assembly node); other
components finish at the minimum of `finish(dependent) - leadDays(dependent)`
over the dependents already scheduled, falling back to the milestone. -/
def backwardFinish (dep : String → List String) (order : List String)
    (assembly_start : ℤ) (durations : String → ℤ)
    (assembly_end : Option ℤ) (assembly_name : Option String) :
    List (String × ℤ) :=
  order.foldl
    (fun fin c =>
      if dep c = [] then
        match assembly_name, assembly_end with
        | some nm, some e =>
          if ¬ nm = "" ∧ c = nm then updAssoc fin c e else updAssoc fin c assembly_start
        | _, _ => updAssoc fin c assembly_start
      else
        let starts := (dep c).filterMap
          (fun depd => (lookupA fin depd).map (fun v => v - durations depd))
        match starts.min? with
        | some m => updAssoc fin c m
        | Option.none => updAssoc fin c assembly_start)
    []

/-- `_backward_schedule_with_deps(components, deps_map, assembly_start,
durations, assembly_end, assembly_name)` (lines 206-260). -/
def backward_schedule_with_deps (components : List String)
    (deps_map : List (String × List String)) (assembly_start : ℤ)
    (durations : String → ℤ) (assembly_end : Option ℤ)
    (assembly_name : Option String) : List ScheduleRow :=
  let dep := dependentsOf components deps_map
  let order := dfsOrder dep components
  let finish := backwardFinish dep order assembly_start durations assembly_end assembly_name
  components.map (fun c =>
    let fin := (lookupA finish c).getD assembly_start
    { composant := c, start := fin - durations c, finish := fin })

/-- The `(starts, finishes)` dictionaries of the forward scheduler. -/
structure FwdState where
  starts : List (String × ℤ)
  finishes : List (String × ℤ)

/-- Resolve one component (lines 287-296 and 300-314): start at
`max(own order date, latest known dependency finish)`, finish after
`max(0, leadDays)`. -/
def resolveComp (start_by_comp : String → Option ℤ) (lead_days : String → ℤ)
    (today : ℤ) (st : FwdState) (comp : String) (dep_fins : List ℤ) : FwdState :=
  let own_start := (start_by_comp comp).getD today
  let start :=
    match dep_fins.max? with
    | some m => max own_start m
    | Option.none => own_start
  let fin := start + max 0 (lead_days comp)
  { starts := updAssoc st.starts comp start
    finishes := updAssoc st.finishes comp fin }

/-- The body of one step of the relaxation pass (lines 284-298): if all the
component's selected dependencies are finished, resolve it and flag progress;
otherwise keep it for the next pass. -/
def passStep (deps_limited : String → List String) (start_by_comp : String → Option ℤ)
    (lead_days : String → ℤ) (today : ℤ) (acc : FwdState × List String × Bool)
    (comp : String) : FwdState × List String × Bool :=
  let deps := deps_limited comp
  if deps.all (fun d => (lookupA acc.1.finishes d).isSome) then
    (resolveComp start_by_comp lead_days today acc.1 comp
      (deps.filterMap (fun d => lookupA acc.1.finishes d)),
      acc.2.1, true)
  else (acc.1, acc.2.1 ++ [comp], acc.2.2)

/-- One relaxation pass over the unresolved components (lines 284-298):
returns the new state, the components still unresolved, and whether any
progress was made. -/
def passOnce (deps_limited : String → List String) (start_by_comp : String → Option ℤ)
    (lead_days : String → ℤ) (today : ℤ) (st : FwdState) (rem : List String) :
    FwdState × List String × Bool :=
  rem.foldl (passStep deps_limited start_by_comp lead_days today) (st, [], false)

/-- The no-progress fallback (lines 299-316): force-resolve every remaining
component using whatever dependency finishes are currently known. -/
def forceResolve (deps_limited : String → List String)
    (start_by_comp : String → Option ℤ) (lead_days : String → ℤ) (today : ℤ)
    (st : FwdState) (rem : List String) : FwdState :=
  rem.foldl
    (fun s comp =>
      resolveComp start_by_comp lead_days today s comp
        ((deps_limited comp).filterMap (fun d => lookupA s.finishes d)))
    st

/-- The bounded relaxation loop (lines 278-316); the fuel is the remaining
iteration budget `max_iter - iteration`. -/
def fwdLoop (deps_limited : String → List String) (start_by_comp : String → Option ℤ)
    (lead_days : String → ℤ) (today : ℤ) : ℕ → FwdState → List String → FwdState
  | 0, st, _ => st
  | b + 1, st, rem =>
    if rem = [] then st
    else
      let p := passOnce deps_limited start_by_comp lead_days today st rem
      if p.2.2 then fwdLoop deps_limited start_by_comp lead_days today b p.1 p.2.1
      else forceResolve deps_limited start_by_comp lead_days today p.1 p.2.1

/-- The per-component rows of the forward scheduler (lines 317-320): one row
for each requested component that has been resolved. -/
def fwdRows (st : FwdState) (components : List String) : List ScheduleRow :=
  components.filterMap (fun comp =>
    match lookupA st.starts comp, lookupA st.finishes comp with
    | some s, some f => some ({ composant := comp, start := s, finish := f } : ScheduleRow)
    | _, _ => Option.none)

/-- The assembly row's start (line 324): the latest finish among the assembly
dependencies, defaulting to the latest finish of any resolved component, or
today. -/
def fwdAsmStart (st : FwdState) (asm_deps : List String) (today : ℤ) : ℤ :=
  match (asm_deps.filterMap (fun d => lookupA st.finishes d)).max? with
  | some m => m
  | Option.none =>
    match (st.finishes.map Prod.snd).max? with
    | some m => m
    | Option.none => today

/-- `_forward_schedule_with_custom_starts(components, deps_map, start_by_comp,
lead_days, assembly_name, assembly_days)` (lines 263-327); `today` stands for
`dt.date.today()`. The Python set `remaining = set(components)` becomes
`components.dedup` iterated in list order. In the assembly block, the lookup
`finishes[d]` is modelled with `filterMap`: whenever the block is reached the
loop has already finished every selected component, so the partial-lookup
branch is unreachable. -/
def forward_schedule_with_custom_starts (components : List String)
    (deps_map : List (String × List String)) (start_by_comp : String → Option ℤ)
    (lead_days : String → ℤ) (assembly_name : String) (assembly_days : ℤ)
    (today : ℤ) : List ScheduleRow :=
  let deps_limited := fun c => (depsOf deps_map c).filter (fun d => decide (d ∈ components))
  let st := fwdLoop deps_limited start_by_comp lead_days today
    (components.length * 3) ⟨[], []⟩ components.dedup
  let rows := fwdRows st components
  let asm_deps := (depsOf deps_map assembly_name).filter (fun d => decide (d ∈ components))
  if assembly_name ∈ components ∨
      (asm_deps ≠ [] ∧ asm_deps.all (fun d => (lookupA st.finishes d).isSome)) then
    rows ++ [{ composant := assembly_name, start := fwdAsmStart st asm_deps today,
               finish := fwdAsmStart st asm_deps today + assembly_days }]
  else rows

/-! ### Transitive dependency resolution (src/streamlit_app.py lines 186-203) -/

/-- `get_all_deps(comp, visited)` threading the mutated visited set, with fuel
for the unbounded recursion; with fuel > number of unvisited reachable names
the zero-fuel branch is unreachable (and on an already-visited component it
returns the same `(visited, [])` as the guard does). -/
def getAllDeps (deps_map : List (String × List String)) :
    ℕ → List String → String → List String × List String
  | 0, visited, _ => (visited, [])
  | f + 1, visited, comp =>
    if comp ∈ visited then (visited, [])
    else
      (depsOf deps_map comp).foldl
        (fun acc dep =>
          let r := getAllDeps deps_map f acc.1 dep
          (r.1, acc.2 ++ [dep] ++ r.2))
        (comp :: visited, [])

/-- Total size of the dependency map (number of entries plus number of listed
dependencies); an upper bound for the recursion depth of `getAllDeps`. -/
def dmSize (deps_map : List (String × List String)) : ℕ :=
  deps_map.foldl (fun a p => a + 1 + p.2.length) 0

/-- `_resolve_dependencies(components, deps_map)` (lines 186-203). -/
def resolve_dependencies (components : List String)
    (deps_map : List (String × List String)) : List (String × List String) :=
  components.map (fun comp => (comp, (getAllDeps deps_map (dmSize deps_map + 2) [] comp).2))

/-! ### Utility lemmas for the scheduler proofs -/

/-- `a` occurs strictly before `b` in `l`. -/
def Before (l : List String) (a b : String) : Prop :=
  ∃ l1 l2, l = l1 ++ b :: l2 ∧ a ∈ l1

/-- Dependency map for the scheduler witnesses: `B` depends on `A`. -/
def dmChainEx : List (String × List String) := [("B", ["A"])]

/-- Durations for the scheduler examples. -/
def durChainEx : String → ℤ := fun s => if s = "A" then 2 else 3

/-- Rank function certifying that `dmChainEx` restricted to `{A, B}` is
acyclic for the backward scheduler's dependent edges. -/
def rankChainEx : String → ℕ := fun s => if s = "B" then 0 else 1

/-- Cyclic dependency map used by the scheduler counterexamples. -/
def dmCycleEx : List (String × List String) := [("A", ["B"]), ("B", ["A"])]

/-! ### Forward scheduler: constraints on acyclic input -/

/-- The forward scheduler's per-component constraints: every resolved
component starts no earlier than its own order date, finishes after
`max 0 leadDays`, and starts no earlier than each selected dependency's
finish. -/
def FwdInv (DL : String → List String) (sbc : String → Option ℤ) (lead : String → ℤ)
    (today : ℤ) (st : FwdState) : Prop :=
  ∀ comp s, lookupA st.starts comp = some s →
    (sbc comp).getD today ≤ s ∧
    lookupA st.finishes comp = some (s + max 0 (lead comp)) ∧
    (∀ d ∈ DL comp, ∃ fd, lookupA st.finishes d = some fd ∧ fd ≤ s)

/-- Dependency map for the forward witness: `Q` depends on `P`. -/
def dmFwdEx : List (String × List String) := [("Q", ["P"])]

/-- Order dates for the forward witness. -/
def sbcFwdEx : String → Option ℤ := fun s => if s = "Q" then some 1 else some 3

/-- Lead days for the forward witness. -/
def leadFwdEx : String → ℤ := fun s => if s = "P" then 2 else 4

/-- Rank function certifying acyclicity of `dmFwdEx` on `{P, Q}`. -/
def rankFwdEx : String → ℕ := fun s => if s = "P" then 0 else 1

/-! ### Transitive dependency resolution: bounded output, cycle safety -/

/-- Remaining weight of the dependency map: total length of the dependency
lists of the entries whose key has not been visited yet. -/
def dmW (deps_map : List (String × List String)) (vis : List String) : ℕ :=
  ((deps_map.filter (fun p => decide (p.1 ∉ vis))).map (fun p => p.2.length)).sum

/-- The diamond dependency map C→{A,B}, A→D, B→D. -/
def dmDiamondEx : List (String × List String) :=
  [("C", ["A", "B"]), ("A", ["D"]), ("B", ["D"])]

/-! ### Lemmas about tier selection -/

theorem selectTier_none_of (r : ℤ) : ∀ t : List ℤ, t.Sorted (fun a b : ℤ => a ≤ b) →
    selectTier r t = Option.none → ∀ x ∈ t, r < x := by
  intro t
  induction t with
  | nil => intro _ _ x hx; cases hx
  | cons a t ih =>
    intro hsort hnone x hx
    rw [List.sorted_cons] at hsort
    by_cases ha : a ≤ r
    · rw [selectTier, if_pos ha] at hnone; cases hnone
    · rcases List.mem_cons.mp hx with h | h
      · omega
      · have := hsort.1 x h
        omega

theorem selectTier_some_spec (r : ℤ) :
    ∀ l : List ℤ, l.Sorted (fun a b : ℤ => a ≤ b) → ∀ s, selectTier r l = some s →
      s ∈ l ∧ s ≤ r ∧ ∀ x ∈ l, x ≤ r → x ≤ s := by
  intro l
  induction l with
  | nil => intro _ s hs; simp [selectTier] at hs
  | cons a t ih =>
    intro hsort s hs
    rw [List.sorted_cons] at hsort
    by_cases ha : a ≤ r
    · rw [selectTier, if_pos ha] at hs
      cases ht : selectTier r t with
      | none =>
        rw [ht] at hs
        simp only [Option.getD_none, Option.some.injEq] at hs
        subst hs
        refine ⟨List.mem_cons_self _ _, ha, ?_⟩
        intro x hx hxr
        rcases List.mem_cons.mp hx with h | h
        · exact h.le
        · -- selectTier on the tail returned none: the tail is all > r
          exfalso
          have := selectTier_none_of r t hsort.2 ht x h
          omega
      | some s2 =>
        rw [ht] at hs
        simp only [Option.getD_some, Option.some.injEq] at hs
        subst hs
        obtain ⟨hmem, hle, hmax⟩ := ih hsort.2 s2 ht
        refine ⟨List.mem_cons_of_mem _ hmem, hle, ?_⟩
        intro x hx hxr
        rcases List.mem_cons.mp hx with h | h
        · exact h ▸ hsort.1 s2 hmem
        · exact hmax x h hxr
    · rw [selectTier, if_neg ha] at hs
      cases hs

theorem selectTier_none_spec (r : ℤ) (l : List ℤ)
    (hsort : l.Sorted (fun a b : ℤ => a ≤ b)) (hnone : selectTier r l = Option.none) :
    ∀ x ∈ l, r < x :=
  selectTier_none_of r l hsort hnone

theorem sorted_headD_le (l : List ℤ) (hsort : l.Sorted (fun a b : ℤ => a ≤ b)) :
    ∀ x ∈ l, l.headD 0 ≤ x := by
  cases l with
  | nil => intro x hx; cases hx
  | cons a t =>
    intro x hx
    rw [List.sorted_cons] at hsort
    rcases List.mem_cons.mp hx with h | h
    · simp [h]
    · simpa using hsort.1 x h

/-- C1: tier resolution. For every tier table and requested quantity,
`pick_tier_value` returns the value stored at the largest breakpoint that is
at most the requested quantity; when no breakpoint is that small it falls
back to the smallest breakpoint; an empty table resolves to 0 (here: the
`zero` argument, which the caller passes as 0). -/
theorem pick_tier_value_resolves (row : Row) (tiers : List (ℤ × String)) (q : ℤ)
    (conv : Cell → ℚ) (hne : tiers ≠ []) :
    (∀ (row2 : Row) (q2 : ℤ) (conv2 : Cell → ℚ) (z : ℚ),
        pick_tier_value row2 ([] : List (ℤ × String)) q2 conv2 z = z) ∧
    ∃ b ∈ tiers.map Prod.fst,
      pick_tier_value row tiers q conv 0 = conv (rowGet row (dictGet tiers b) (Cell.num 0)) ∧
      (∀ b2 ∈ tiers.map Prod.fst, b2 ≤ q → b2 ≤ b) ∧
      ((∃ b2 ∈ tiers.map Prod.fst, b2 ≤ q) → b ≤ q) ∧
      ((∀ b2 ∈ tiers.map Prod.fst, q < b2) → ∀ b2 ∈ tiers.map Prod.fst, b ≤ b2) := by
  constructor
  · intro row2 q2 conv2 z
    simp [pick_tier_value]
  · have hperm := List.perm_insertionSort (fun a b : ℤ => a ≤ b) (tiers.map Prod.fst)
    have hsort := List.sorted_insertionSort (fun a b : ℤ => a ≤ b) (tiers.map Prod.fst)
    set sorted := List.insertionSort (fun a b : ℤ => a ≤ b) (tiers.map Prod.fst) with hsorted
    have hmem : ∀ x : ℤ, x ∈ sorted ↔ x ∈ tiers.map Prod.fst := fun x => hperm.mem_iff
    have hpick : pick_tier_value row tiers q conv 0 =
        conv (rowGet row
          (dictGet tiers ((selectTier q sorted).getD (sorted.headD 0))) (Cell.num 0)) := by
      rw [pick_tier_value, if_neg hne]
    cases hsel : selectTier q sorted with
    | some s =>
      obtain ⟨hs_mem, hs_le, hs_max⟩ := selectTier_some_spec q sorted hsort s hsel
      refine ⟨s, (hmem s).mp hs_mem, ?_, ?_, ?_, ?_⟩
      · rw [hpick, hsel]; rfl
      · intro b2 hb2 hb2q
        exact hs_max b2 ((hmem b2).mpr hb2) hb2q
      · intro _; exact hs_le
      · intro hall _ _
        exact absurd hs_le (not_le.mpr (hall s ((hmem s).mp hs_mem)))
    | none =>
      have hne2 : sorted ≠ [] := by
        intro h
        apply hne
        have : tiers.map Prod.fst = [] := by
          rw [← List.length_eq_zero]
          rw [← hperm.length_eq, h]
          rfl
        exact List.map_eq_nil_iff.mp this
      have hhead : sorted.headD 0 ∈ sorted := by
        cases h : sorted with
        | nil => exact absurd h hne2
        | cons a t => simp
      have hgt := selectTier_none_spec q sorted hsort
      refine ⟨sorted.headD 0, (hmem _).mp hhead, ?_, ?_, ?_, ?_⟩
      · rw [hpick, hsel]; rfl
      · intro b2 hb2 hb2q
        exact absurd hb2q (not_le.mpr (hgt hsel b2 ((hmem b2).mpr hb2)))
      · rintro ⟨b2, hb2, hb2q⟩
        exact absurd hb2q (not_le.mpr (hgt hsel b2 ((hmem b2).mpr hb2)))
      · intro _ b2 hb2
        exact sorted_headD_le sorted hsort b2 ((hmem b2).mpr hb2)

/-- Witness for C1 at the spec's example: table {200, 1000, 5000}, requested
quantity 800; the resolved value is the one at breakpoint 200, namely 5.50. -/
theorem pick_tier_value_resolves_witness :
    (tiersEx ≠ [] ∧
      ((∀ (row2 : Row) (q2 : ℤ) (conv2 : Cell → ℚ) (z : ℚ),
          pick_tier_value row2 ([] : List (ℤ × String)) q2 conv2 z = z) ∧
        ∃ b ∈ tiersEx.map Prod.fst,
          pick_tier_value rowTiersEx tiersEx 800 (fun c => to_float c 0) 0 =
            to_float (rowGet rowTiersEx (dictGet tiersEx b) (Cell.num 0)) 0 ∧
          (∀ b2 ∈ tiersEx.map Prod.fst, b2 ≤ 800 → b2 ≤ b) ∧
          ((∃ b2 ∈ tiersEx.map Prod.fst, b2 ≤ 800) → b ≤ 800) ∧
          ((∀ b2 ∈ tiersEx.map Prod.fst, 800 < b2) → ∀ b2 ∈ tiersEx.map Prod.fst, b ≤ b2))) ∧
    pick_tier_value rowTiersEx tiersEx 800 (fun c => to_float c 0) 0 = 11/2 :=
  ⟨⟨by simp [tiersEx],
    pick_tier_value_resolves rowTiersEx tiersEx 800 (fun c => to_float c 0)
      (by simp [tiersEx])⟩,
    rfl⟩

/-! ### Lemmas about lot rounding -/

theorem ceil_to_lot_spec (n l : ℤ) (hl : 1 ≤ l) :
    l ∣ ceil_to_lot n l ∧ n ≤ ceil_to_lot n l ∧
      ∀ k : ℤ, l ∣ k → n ≤ k → ceil_to_lot n l ≤ k := by
  by_cases h1 : l ≤ 1
  · have hl1 : l = 1 := le_antisymm h1 hl
    subst hl1
    rw [ceil_to_lot, if_pos le_rfl]
    exact ⟨one_dvd n, le_rfl, fun k _ hk => hk⟩
  · have hl2 : 2 ≤ l := by omega
    have hl0 : 0 < l := by omega
    rw [ceil_to_lot, if_neg h1, Int.fdiv_eq_ediv _ (by omega)]
    set m := (n + l - 1) / l with hm
    have hmod := Int.ediv_add_emod (n + l - 1) l
    rw [← hm] at hmod
    have hr0 : 0 ≤ (n + l - 1) % l := Int.emod_nonneg _ (by omega)
    have hrl : (n + l - 1) % l < l := Int.emod_lt_of_pos _ hl0
    have hml : m * l = l * m := mul_comm _ _
    refine ⟨dvd_mul_left l m, ?_, ?_⟩
    · rw [hml]; omega
    · rintro k ⟨c, rfl⟩ hk
      have hcm : m ≤ c := by
        have hlt : l * (m - 1) < l * c := by
          have : l * (m - 1) = l * m - l := by ring
          omega
        have := lt_of_mul_lt_mul_left hlt (le_of_lt hl0)
        omega
      calc m * l = l * m := mul_comm _ _
        _ ≤ l * c := by
            exact mul_le_mul_of_nonneg_left hcm (le_of_lt hl0)

/-- C2: the quantity ordered by `compute_offer` is
`ceil_to_lot (max requestedQty MOQ) lotSize`, which is a multiple of the lot
size, is at least `max requestedQty MOQ` (MOQ applied before lot rounding),
is the smallest such multiple, and lot size ≤ 1 performs no rounding. -/
theorem qty_ordered_rounding (row : Row) (mapping : Mapping) (q target : ℤ)
    (config : Config) (m l : ℤ) (_hm : 1 ≤ m) (hl : 1 ≤ l) :
    (compute_offer row q target mapping config).qty_ordered =
      ceil_to_lot (max q (prepare_fields row mapping q).moq)
        (prepare_fields row mapping q).lot_size ∧
    l ∣ ceil_to_lot (max q m) l ∧
    max q m ≤ ceil_to_lot (max q m) l ∧
    (∀ k : ℤ, l ∣ k → max q m ≤ k → ceil_to_lot (max q m) l ≤ k) ∧
    (l ≤ 1 → ceil_to_lot (max q m) l = max q m) := by
  obtain ⟨hdvd, hge, hmin⟩ := ceil_to_lot_spec (max q m) l hl
  refine ⟨rfl, hdvd, hge, hmin, ?_⟩
  intro h1
  rw [ceil_to_lot, if_pos h1]

/-- Witness for C2 at the spec's example: requested 30, MOQ 100, lot 50 give
an ordered quantity of 100. -/
theorem qty_ordered_rounding_witness :
    ((1 : ℤ) ≤ 100 ∧ (1 : ℤ) ≤ 50 ∧
      ((compute_offer rowMoqEx 30 0 mapMoqEx cfgEx).qty_ordered =
        ceil_to_lot (max 30 (prepare_fields rowMoqEx mapMoqEx 30).moq)
          (prepare_fields rowMoqEx mapMoqEx 30).lot_size ∧
      (50 : ℤ) ∣ ceil_to_lot (max 30 100) 50 ∧
      max (30 : ℤ) 100 ≤ ceil_to_lot (max 30 100) 50 ∧
      (∀ k : ℤ, (50 : ℤ) ∣ k → max (30 : ℤ) 100 ≤ k → ceil_to_lot (max 30 100) 50 ≤ k) ∧
      ((50 : ℤ) ≤ 1 → ceil_to_lot (max (30 : ℤ) 100) 50 = max 30 100))) ∧
    (compute_offer rowMoqEx 30 0 mapMoqEx cfgEx).qty_ordered = 100 :=
  ⟨⟨by decide, by decide,
    qty_ordered_rounding rowMoqEx mapMoqEx 30 0 cfgEx 100 50 (by decide) (by decide)⟩,
    by decide⟩

/-- C3: for both transport modes the unit price is exactly production unit
cost plus that mode's transport unit cost, and the total cost is
`(qtyOrdered * unitPrice + handlingFlat) * (1 + handlingPercent / 100)`,
with the same overhead formula for air and sea. -/
theorem offer_cost_formula (row : Row) (mapping : Mapping) (q target : ℤ)
    (config : Config) :
    let off := compute_offer row q target mapping config
    off.air.unit_price = off.air.production_unit_cost + off.air.transport_unit_cost ∧
    off.sea.unit_price = off.sea.production_unit_cost + off.sea.transport_unit_cost ∧
    off.air.total_cost =
      ((off.qty_ordered : ℚ) * off.air.unit_price + config.pricing.handling_flat.getD 0) *
        (1 + config.pricing.handling_percent.getD 0 / 100) ∧
    off.sea.total_cost =
      ((off.qty_ordered : ℚ) * off.sea.unit_price + config.pricing.handling_flat.getD 0) *
        (1 + config.pricing.handling_percent.getD 0 / 100) :=
  ⟨rfl, rfl, rfl, rfl⟩

/-- C4: per mode, the lead time in days is (tiered production weeks + that
mode's fixed transport weeks) × 7; the fixed transport weeks come only from
the dedicated transport-time column (an unconfigured or absent column
contributes 0, with no fallback to the tiered production-duration table);
the order-by date is the target date minus the lead time. -/
theorem lead_time_and_order_by (row : Row) (mapping : Mapping) (q target : ℤ)
    (config : Config) :
    let off := compute_offer row q target mapping config
    let prodWeeks : ℤ :=
      if mapping.tiers_production_time ≠ [] then
        pick_tier_value row mapping.tiers_production_time q (fun c => to_int c 0) 0
      else 0
    let airWeeks : ℤ :=
      if mapping.air_transport_time_column ≠ "" ∧
          mapping.air_transport_time_column ∈ rowIndex row then
        to_int (rowGet row mapping.air_transport_time_column (Cell.num 0)) 0
      else 0
    let seaWeeks : ℤ :=
      if mapping.sea_transport_time_column ≠ "" ∧
          mapping.sea_transport_time_column ∈ rowIndex row then
        to_int (rowGet row mapping.sea_transport_time_column (Cell.num 0)) 0
      else 0
    off.air.lead_time_days = (prodWeeks + airWeeks) * 7 ∧
    off.sea.lead_time_days = (prodWeeks + seaWeeks) * 7 ∧
    off.air.order_by = target - off.air.lead_time_days ∧
    off.sea.order_by = target - off.sea.lead_time_days ∧
    ((mapping.air_transport_time_column = "" ∨
        mapping.air_transport_time_column ∉ rowIndex row) →
      off.air.lead_time_days = prodWeeks * 7) ∧
    ((mapping.sea_transport_time_column = "" ∨
        mapping.sea_transport_time_column ∉ rowIndex row) →
      off.sea.lead_time_days = prodWeeks * 7) := by
  intro off prodWeeks airWeeks seaWeeks
  have hair : off.air.lead_time_days = (prodWeeks + airWeeks) * 7 := rfl
  have hsea : off.sea.lead_time_days = (prodWeeks + seaWeeks) * 7 := rfl
  refine ⟨hair, hsea, rfl, rfl, ?_, ?_⟩
  · intro h
    have hz : airWeeks = 0 := by
      show (if mapping.air_transport_time_column ≠ "" ∧
          mapping.air_transport_time_column ∈ rowIndex row then
        to_int (rowGet row mapping.air_transport_time_column (Cell.num 0)) 0
      else 0) = 0
      rw [if_neg]
      rintro ⟨h1, h2⟩
      rcases h with h | h
      · exact h1 h
      · exact h h2
    rw [hair, hz, add_zero]
  · intro h
    have hz : seaWeeks = 0 := by
      show (if mapping.sea_transport_time_column ≠ "" ∧
          mapping.sea_transport_time_column ∈ rowIndex row then
        to_int (rowGet row mapping.sea_transport_time_column (Cell.num 0)) 0
      else 0) = 0
      rw [if_neg]
      rintro ⟨h1, h2⟩
      rcases h with h | h
      · exact h1 h
      · exact h h2
    rw [hsea, hz, add_zero]

/-- Witness for C4 at the spec's example: production 2 weeks and air
transport 1 week give 21 days of air lead time and an order-by date 21 days
before the target; the sea mode, whose transport column is unconfigured,
gets no fallback and keeps 14 days. -/
theorem lead_time_and_order_by_witness :
    (compute_offer rowLeadEx 800 1000 mapLeadEx cfgEx).air.lead_time_days = 21 ∧
    (compute_offer rowLeadEx 800 1000 mapLeadEx cfgEx).air.order_by = 1000 - 21 ∧
    (compute_offer rowLeadEx 800 1000 mapLeadEx cfgEx).sea.lead_time_days = 14 ∧
    ((mapLeadEx.sea_transport_time_column = "" ∨
        mapLeadEx.sea_transport_time_column ∉ rowIndex rowLeadEx) →
      (compute_offer rowLeadEx 800 1000 mapLeadEx cfgEx).sea.lead_time_days =
        (if mapLeadEx.tiers_production_time ≠ [] then
          pick_tier_value rowLeadEx mapLeadEx.tiers_production_time 800
            (fun c => to_int c 0) 0
        else 0) * 7) :=
  ⟨by decide, by decide, by decide,
    (lead_time_and_order_by rowLeadEx mapLeadEx 800 1000 cfgEx).2.2.2.2.2⟩

/-- C8 (amended): numeric coercion is total and lenient — already-numeric
cells pass through unchanged, absent cells resolve to the caller default,
decimal-comma strings such as "1234,56" parse to 1234.56, the first numeric
token is extracted from embedded text ("environ 12,5 kg" gives 12.5), and
unparsable text resolves to the default; however "1 234,56" is cut at the
thousands space, so its first numeric token is "1" and the value is 1. -/
theorem to_float_lenient :
    (∀ (q : ℚ) (d : ℚ), to_float (Cell.num q) d = q) ∧
    (∀ d : ℚ, to_float Cell.none d = d) ∧
    to_float (Cell.str "1 234,56") 0 = 1 ∧
    to_float (Cell.str "1234,56") 0 = 30864/25 ∧
    to_float (Cell.str "environ 12,5 kg") 0 = 25/2 ∧
    (∀ d : ℚ, to_float (Cell.str "n/a") d = d) := by
  refine ⟨fun q d => rfl, fun d => rfl, ?_, ?_, ?_, fun d => rfl⟩
  · have h : findNumToken "1 234,56".data = some ⟨false, ['1'], []⟩ := by decide
    have d1 : digitsVal ['1'] = 1 := by decide
    have d2 : digitsVal [] = 0 := by decide
    simp only [to_float, h, tokenValue, d1, d2]
    norm_num
  · have h : findNumToken "1234,56".data =
        some ⟨false, ['1', '2', '3', '4'], ['5', '6']⟩ := by decide
    have d1 : digitsVal ['1', '2', '3', '4'] = 1234 := by decide
    have d2 : digitsVal ['5', '6'] = 56 := by decide
    simp only [to_float, h, tokenValue, d1, d2]
    norm_num
  · have h : findNumToken "environ 12,5 kg".data =
        some ⟨false, ['1', '2'], ['5']⟩ := by decide
    have d1 : digitsVal ['1', '2'] = 12 := by decide
    have d2 : digitsVal ['5'] = 5 := by decide
    simp only [to_float, h, tokenValue, d1, d2]
    norm_num

/-- Counterexample for C8 as stated: the thousands/decimal-comma variant
"1 234,56" does not coerce to 1234.56 (the regex stops at the space and the
first numeric token is "1"). -/
theorem to_float_thousands_comma_cex :
    ¬ to_float (Cell.str "1 234,56") 0 = 30864/25 := by
  have h : findNumToken "1 234,56".data = some ⟨false, ['1'], []⟩ := by decide
  have d1 : digitsVal ['1'] = 1 := by decide
  have d2 : digitsVal [] = 0 := by decide
  simp only [to_float, h, tokenValue, d1, d2]
  norm_num

/-- C10: `compute_offer` clamps both MOQ and lot size to at least 1 — a
missing, zero, negative or unparsable MOQ or lot-size cell behaves exactly
as the value 1 — and consequently the ordered quantity is at least
`max requestedQty 1` for every requested quantity. -/
theorem moq_lot_clamped :
    (∀ (row : Row) (mapping : Mapping) (q : ℤ),
      1 ≤ (prepare_fields row mapping q).moq ∧
      1 ≤ (prepare_fields row mapping q).lot_size) ∧
    (∀ (row : Row) (mapping : Mapping) (q target : ℤ) (config : Config),
      max q 1 ≤ (compute_offer row q target mapping config).qty_ordered) ∧
    (∀ q : ℤ, (prepare_fields rowClampMissing mapClampEx q).moq = 1 ∧
      (prepare_fields rowClampMissing mapClampEx q).lot_size = 1) ∧
    (∀ q : ℤ, (prepare_fields rowClampZero mapClampEx q).moq = 1 ∧
      (prepare_fields rowClampZero mapClampEx q).lot_size = 1) ∧
    (∀ q : ℤ, (prepare_fields rowClampNeg mapClampEx q).moq = 1 ∧
      (prepare_fields rowClampNeg mapClampEx q).lot_size = 1) ∧
    (∀ q : ℤ, (prepare_fields rowClampBad mapClampEx q).moq = 1 ∧
      (prepare_fields rowClampBad mapClampEx q).lot_size = 1) ∧
    (∀ (q target : ℤ) (config : Config),
      (compute_offer rowClampZero q target mapClampEx config).qty_ordered = max q 1) := by
  have hmoq : ∀ (row : Row) (mapping : Mapping) (q : ℤ),
      1 ≤ (prepare_fields row mapping q).moq ∧
      1 ≤ (prepare_fields row mapping q).lot_size :=
    fun row mapping q => ⟨le_max_left _ _, le_max_left _ _⟩
  refine ⟨hmoq, ?_, fun q => ⟨rfl, rfl⟩, fun q => ⟨rfl, rfl⟩,
    fun q => ⟨rfl, rfl⟩, fun q => ⟨rfl, rfl⟩, fun q target config => ?_⟩
  · intro row mapping q target config
    obtain ⟨h1, h2⟩ := hmoq row mapping q
    obtain ⟨_, hge, _⟩ :=
      ceil_to_lot_spec (max q (prepare_fields row mapping q).moq)
        (prepare_fields row mapping q).lot_size h2
    calc max q 1 ≤ max q (prepare_fields row mapping q).moq :=
          max_le_max le_rfl h1
      _ ≤ (compute_offer row q target mapping config).qty_ordered := hge
  · show ceil_to_lot (max q (1 : ℤ)) 1 = max q 1
    rw [ceil_to_lot, if_pos le_rfl]

theorem Before.append_right {l l3 : List String} {a b : String}
    (h : Before l a b) : Before (l ++ l3) a b := by
  obtain ⟨l1, l2, rfl, ha⟩ := h
  exact ⟨l1, l2 ++ l3, by simp, ha⟩

theorem before_append_singleton {l : List String} {a b : String} (ha : a ∈ l) :
    Before (l ++ [b]) a b :=
  ⟨l, [], rfl, ha⟩

theorem append_cons_inj_of_nodup :
    ∀ {A A2 B B2 : List String} {c : String}, A ++ c :: B = A2 ++ c :: B2 →
      (A ++ c :: B).Nodup → A = A2 := by
  intro A
  induction A with
  | nil =>
    intro A2 B B2 c h hnd
    cases A2 with
    | nil => rfl
    | cons a t =>
      exfalso
      simp only [List.nil_append, List.cons_append, List.cons.injEq] at h
      obtain ⟨rfl, h2⟩ := h
      simp only [List.nil_append, List.nodup_cons] at hnd
      apply hnd.1
      rw [h2]
      exact List.mem_append_right t (List.mem_cons_self _ _)
  | cons a A ih =>
    intro A2 B B2 c h hnd
    cases A2 with
    | nil =>
      exfalso
      simp only [List.nil_append, List.cons_append, List.cons.injEq] at h
      obtain ⟨rfl, h2⟩ := h
      simp only [List.cons_append, List.nodup_cons] at hnd
      exact hnd.1 (List.mem_append_right A (List.mem_cons_self _ _))
    | cons a2 t =>
      simp only [List.cons_append, List.cons.injEq] at h
      obtain ⟨rfl, h2⟩ := h
      simp only [List.cons_append, List.nodup_cons] at hnd
      rw [ih h2 hnd.2]

theorem before_mem_prefix {done rest : List String} {c D : String}
    (h : Before (done ++ c :: rest) D c) (hnd : (done ++ c :: rest).Nodup) :
    D ∈ done := by
  obtain ⟨l1, l2, heq, hD⟩ := h
  have hdl : done = l1 := append_cons_inj_of_nodup heq hnd
  exact hdl.symm ▸ hD

theorem exists_min_rank (rank : String → ℕ) :
    ∀ l : List String, l ≠ [] → ∃ a ∈ l, ∀ b ∈ l, rank a ≤ rank b := by
  intro l
  induction l with
  | nil => intro h; exact absurd rfl h
  | cons x t ih =>
    intro _
    cases t with
    | nil => exact ⟨x, List.mem_cons_self _ _, by simp⟩
    | cons y u =>
      obtain ⟨a, ha, hmin⟩ := ih (by simp)
      by_cases hxa : rank x ≤ rank a
      · refine ⟨x, List.mem_cons_self _ _, ?_⟩
        intro b hb
        rcases List.mem_cons.mp hb with rfl | hb
        · exact le_rfl
        · exact le_trans hxa (hmin b hb)
      · refine ⟨a, List.mem_cons_of_mem _ ha, ?_⟩
        intro b hb
        rcases List.mem_cons.mp hb with rfl | hb
        · omega
        · exact hmin b hb

theorem find?_filter_of_imp {p q : String × ℤ → Bool} :
    ∀ l : List (String × ℤ), (∀ x, p x = true → q x = true) →
      (l.filter q).find? p = l.find? p := by
  intro l
  induction l with
  | nil => intro _; rfl
  | cons a t ih =>
    intro himp
    by_cases hq : q a
    · rw [List.filter_cons_of_pos hq]
      by_cases hp : p a
      · rw [List.find?_cons_of_pos _ hp, List.find?_cons_of_pos _ hp]
      · rw [List.find?_cons_of_neg _ hp, List.find?_cons_of_neg _ hp]
        exact ih himp
    · rw [List.filter_cons_of_neg (by simp [hq])]
      have hp : ¬ p a = true := fun h => hq (himp a h)
      rw [List.find?_cons_of_neg _ hp]
      exact ih himp

theorem lookupA_updAssoc (l : List (String × ℤ)) (k : String) (v : ℤ) (k2 : String) :
    lookupA (updAssoc l k v) k2 = if k2 = k then some v else lookupA l k2 := by
  by_cases h : k2 = k
  · subst h
    rw [if_pos rfl]
    rw [lookupA, updAssoc, List.find?_append]
    have hnone : (l.filter (fun p => !(p.1 == k2))).find? (fun p => p.1 == k2) =
        Option.none := by
      rw [List.find?_eq_none]
      intro x hx
      have := List.of_mem_filter hx
      simpa using this
    rw [hnone]
    simp [List.find?]
  · rw [if_neg h]
    rw [lookupA, updAssoc, List.find?_append, lookupA]
    have heq : (l.filter (fun p => !(p.1 == k))).find? (fun p => p.1 == k2) =
        l.find? (fun p => p.1 == k2) := by
      apply find?_filter_of_imp
      intro x hx
      simp only [beq_iff_eq] at hx
      simp only [Bool.not_eq_true', beq_eq_false_iff_ne, ne_eq]
      rw [hx]
      exact h
    rw [heq]
    cases hfind : l.find? (fun p => p.1 == k2) with
    | none =>
      simp only [Option.none_or]
      have hkk : ((k, v).1 == k2) = false := by
        simp only [beq_eq_false_iff_ne, ne_eq]
        exact fun hh => h hh.symm
      simp [List.find?, hkk]
    | some p => rfl

theorem lookupA_updAssoc_isSome (l : List (String × ℤ)) (k : String) (v : ℤ)
    (k2 : String) (h : (lookupA l k2).isSome) :
    (lookupA (updAssoc l k v) k2).isSome := by
  rw [lookupA_updAssoc]
  by_cases hk : k2 = k
  · simp [hk]
  · simpa [hk] using h

theorem foldl_max_spec : ∀ (xs : List ℤ) (a : ℤ),
    a ≤ xs.foldl max a ∧ ∀ x ∈ xs, x ≤ xs.foldl max a := by
  intro xs
  induction xs with
  | nil => intro a; exact ⟨le_rfl, by simp⟩
  | cons x t ih =>
    intro a
    obtain ⟨h1, h2⟩ := ih (max a x)
    refine ⟨le_trans (le_max_left a x) h1, ?_⟩
    intro y hy
    rcases List.mem_cons.mp hy with rfl | hy
    · exact le_trans (le_max_right a y) h1
    · exact h2 y hy

theorem le_max?_of_mem {l : List ℤ} {a m : ℤ} (ha : a ∈ l) (hm : l.max? = some m) :
    a ≤ m := by
  cases l with
  | nil => cases ha
  | cons x t =>
    rw [List.max?_cons'] at hm
    simp only [Option.some.injEq] at hm
    subst hm
    rcases List.mem_cons.mp ha with rfl | ha
    · exact (foldl_max_spec t a).1
    · exact (foldl_max_spec t x).2 a ha

theorem foldl_min_spec : ∀ (xs : List ℤ) (a : ℤ),
    xs.foldl min a ≤ a ∧ ∀ x ∈ xs, xs.foldl min a ≤ x := by
  intro xs
  induction xs with
  | nil => intro a; exact ⟨le_rfl, by simp⟩
  | cons x t ih =>
    intro a
    obtain ⟨h1, h2⟩ := ih (min a x)
    refine ⟨le_trans h1 (min_le_left a x), ?_⟩
    intro y hy
    rcases List.mem_cons.mp hy with rfl | hy
    · exact le_trans h1 (min_le_right a y)
    · exact h2 y hy

theorem min?_le_of_mem {l : List ℤ} {a m : ℤ} (ha : a ∈ l) (hm : l.min? = some m) :
    m ≤ a := by
  cases l with
  | nil => cases ha
  | cons x t =>
    rw [List.min?_cons'] at hm
    simp only [Option.some.injEq] at hm
    subst hm
    rcases List.mem_cons.mp ha with rfl | ha
    · exact (foldl_min_spec t a).1
    · exact (foldl_min_spec t x).2 a ha

theorem filter_not_mem_length_le (U : List String) :
    ∀ v1 v2 : List String, (∀ x, x ∈ v1 → x ∈ v2) →
      (U.filter (fun u => decide (u ∉ v2))).length ≤
        (U.filter (fun u => decide (u ∉ v1))).length := by
  intro v1 v2 h
  apply List.Sublist.length_le
  apply List.monotone_filter_right
  intro a ha
  simp only [decide_eq_true_eq] at ha ⊢
  exact fun hm => ha (h a hm)

theorem filter_not_mem_length_lt (c : String) (v : List String) (hv : c ∉ v) :
    ∀ U : List String, c ∈ U →
      (U.filter (fun u => decide (u ∉ c :: v))).length <
        (U.filter (fun u => decide (u ∉ v))).length := by
  intro U
  induction U with
  | nil => intro hc; cases hc
  | cons u U ih =>
    intro hc
    by_cases hu : u = c
    · rw [hu]
      rw [List.filter_cons_of_neg (by simp), List.filter_cons_of_pos (by simpa using hv)]
      have hle := filter_not_mem_length_le U v (c :: v) (fun x hx => List.mem_cons_of_mem _ hx)
      simpa using Nat.lt_succ_of_le hle
    · have hc2 : c ∈ U := by
        rcases List.mem_cons.mp hc with h | h
        · exact absurd h.symm hu
        · exact h
      by_cases humem : u ∈ v
      · rw [List.filter_cons_of_neg (by simp [humem]),
          List.filter_cons_of_neg (by simp [humem])]
        exact ih hc2
      · have hucv : u ∉ c :: v := by simp [hu, humem]
        rw [List.filter_cons_of_pos (by simpa using hucv),
          List.filter_cons_of_pos (by simpa using humem)]
        simpa using ih hc2

/-! ### DFS postorder correctness (backward scheduler traversal) -/

theorem dfsAux_spec (dep : String → List String) (U : List String) (rank : String → ℕ)
    (hdepU : ∀ c d, d ∈ dep c → d ∈ U)
    (hrank : ∀ c d, d ∈ dep c → rank d < rank c) :
    ∀ f : ℕ, ∀ (st : List String × List String) (c : String) (g : List String),
      (∀ x ∈ st.1, x ∈ g ∨ x ∈ st.2) →
      (∀ x ∈ st.2, x ∈ st.1) →
      st.2.Nodup →
      (U.filter (fun u => decide (u ∉ st.1))).length < f →
      c ∈ U →
      (∀ x ∈ g, rank c < rank x) →
      ∃ Δ : List String,
        (dfsAux dep f st c).2 = st.2 ++ Δ ∧
        (∀ x, x ∈ (dfsAux dep f st c).1 ↔ x ∈ st.1 ∨ x ∈ Δ) ∧
        c ∈ (dfsAux dep f st c).1 ∧
        (∀ x ∈ Δ, x ∉ st.1 ∧ x ∈ U ∧ rank x ≤ rank c) ∧
        (dfsAux dep f st c).2.Nodup ∧
        (∀ x ∈ (dfsAux dep f st c).1, x ∈ g ∨ x ∈ (dfsAux dep f st c).2) ∧
        (∀ x ∈ (dfsAux dep f st c).2, x ∈ (dfsAux dep f st c).1) ∧
        (∀ x ∈ Δ, ∀ d ∈ dep x, Before (dfsAux dep f st c).2 d x) := by
  intro f
  induction f with
  | zero =>
    intro st c g _ _ _ h4 _ _
    exact absurd h4 (Nat.not_lt_zero _)
  | succ f ih =>
    intro st c g h1 h2 h3 h4 h5 h6
    by_cases hc : c ∈ st.1
    · have hres : dfsAux dep (f + 1) st c = st := by
        rw [dfsAux, if_pos hc]
      rw [hres]
      exact ⟨[], (List.append_nil _).symm, fun x => by simp, hc,
        fun x hx => absurd hx (List.not_mem_nil x), h3, h1, h2,
        fun x hx => absurd hx (List.not_mem_nil x)⟩
    · -- fresh node: visit the dependents, then append c
      have hfold : ∀ ns : List String, (∀ n ∈ ns, n ∈ U) →
          (∀ n ∈ ns, ∀ y ∈ c :: g, rank n < rank y) →
          ∀ st' : List String × List String,
            (∀ x ∈ st'.1, x ∈ c :: g ∨ x ∈ st'.2) →
            (∀ x ∈ st'.2, x ∈ st'.1) →
            st'.2.Nodup →
            (U.filter (fun u => decide (u ∉ st'.1))).length < f →
            ∃ Δ : List String,
              (ns.foldl (fun s n => dfsAux dep f s n) st').2 = st'.2 ++ Δ ∧
              (∀ x, x ∈ (ns.foldl (fun s n => dfsAux dep f s n) st').1 ↔
                x ∈ st'.1 ∨ x ∈ Δ) ∧
              (∀ n ∈ ns, n ∈ (ns.foldl (fun s n => dfsAux dep f s n) st').1) ∧
              (∀ x ∈ Δ, x ∉ st'.1 ∧ x ∈ U ∧ ∀ y ∈ c :: g, rank x < rank y) ∧
              (ns.foldl (fun s n => dfsAux dep f s n) st').2.Nodup ∧
              (∀ x ∈ (ns.foldl (fun s n => dfsAux dep f s n) st').1,
                x ∈ c :: g ∨ x ∈ (ns.foldl (fun s n => dfsAux dep f s n) st').2) ∧
              (∀ x ∈ (ns.foldl (fun s n => dfsAux dep f s n) st').2,
                x ∈ (ns.foldl (fun s n => dfsAux dep f s n) st').1) ∧
              (∀ x ∈ Δ, ∀ d ∈ dep x,
                Before (ns.foldl (fun s n => dfsAux dep f s n) st').2 d x) := by
        intro ns
        induction ns with
        | nil =>
          intro _ _ st' p1 p2 p3 _
          exact ⟨[], (List.append_nil _).symm, fun x => by simp,
            fun n hn => absurd hn (List.not_mem_nil n),
            fun x hx => absurd hx (List.not_mem_nil x), p3, p1, p2,
            fun x hx => absurd hx (List.not_mem_nil x)⟩
        | cons n rest ihf =>
          intro hU hrk st' p1 p2 p3 p4
          obtain ⟨Δa, qa1, qa2, qa3, qa4, qa5, qa6, qa7, qa8⟩ :=
            ih st' n (c :: g) p1 p2 p3 p4 (hU n (List.mem_cons_self _ _))
              (hrk n (List.mem_cons_self _ _))
          have hsub : ∀ x, x ∈ st'.1 → x ∈ (dfsAux dep f st' n).1 :=
            fun x hx => (qa2 x).mpr (Or.inl hx)
          obtain ⟨Δb, qb1, qb2, qb3, qb4, qb5, qb6, qb7, qb8⟩ :=
            ihf (fun m hm => hU m (List.mem_cons_of_mem _ hm))
              (fun m hm => hrk m (List.mem_cons_of_mem _ hm))
              (dfsAux dep f st' n) qa6 qa7 qa5
              (lt_of_le_of_lt
                (filter_not_mem_length_le U st'.1 (dfsAux dep f st' n).1 hsub) p4)
          rw [List.foldl_cons]
          refine ⟨Δa ++ Δb, ?_, ?_, ?_, ?_, qb5, qb6, qb7, ?_⟩
          · rw [qb1, qa1, List.append_assoc]
          · intro x
            rw [qb2, qa2, List.mem_append]
            tauto
          · intro m hm
            rcases List.mem_cons.mp hm with rfl | hm
            · exact (qb2 m).mpr (Or.inl qa3)
            · exact qb3 m hm
          · intro x hx
            rcases List.mem_append.mp hx with hx | hx
            · obtain ⟨hx1, hx2, hx3⟩ := qa4 x hx
              exact ⟨hx1, hx2, fun y hy =>
                lt_of_le_of_lt hx3 (hrk n (List.mem_cons_self _ _) y hy)⟩
            · obtain ⟨hx1, hx2, hx3⟩ := qb4 x hx
              exact ⟨fun hmem => hx1 (hsub x hmem), hx2, hx3⟩
          · intro x hx d hd
            rcases List.mem_append.mp hx with hx | hx
            · rw [qb1]
              exact (qa8 x hx d hd).append_right
            · exact qb8 x hx d hd
      have hrk0 : ∀ n ∈ dep c, ∀ y ∈ c :: g, rank n < rank y := by
        intro n hn y hy
        rcases List.mem_cons.mp hy with h | hy
        · rw [h]
          exact hrank c n hn
        · exact lt_trans (hrank c n hn) (h6 y hy)
      have hp1 : ∀ x ∈ (c :: st.1, st.2).1, x ∈ c :: g ∨ x ∈ (c :: st.1, st.2).2 := by
        intro x hx
        rcases List.mem_cons.mp hx with rfl | hx
        · exact Or.inl (List.mem_cons_self _ _)
        · rcases h1 x hx with h | h
          · exact Or.inl (List.mem_cons_of_mem _ h)
          · exact Or.inr h
      have hp2 : ∀ x ∈ (c :: st.1, st.2).2, x ∈ (c :: st.1, st.2).1 :=
        fun x hx => List.mem_cons_of_mem _ (h2 x hx)
      have hp4 : (U.filter (fun u => decide (u ∉ (c :: st.1, st.2).1))).length < f :=
        lt_of_lt_of_le (filter_not_mem_length_lt c st.1 hc U h5) (Nat.lt_succ_iff.mp h4)
      obtain ⟨Δ2, w1, w2, w3, w4, w5, w6, w7, w8⟩ :=
        hfold (dep c) (hdepU c) hrk0 (c :: st.1, st.2) hp1 hp2 h3 hp4
      have hres : dfsAux dep (f + 1) st c =
          (((dep c).foldl (fun s n => dfsAux dep f s n) (c :: st.1, st.2)).1,
            ((dep c).foldl (fun s n => dfsAux dep f s n) (c :: st.1, st.2)).2 ++ [c]) := by
        rw [dfsAux, if_neg hc]
      set st2 := (dep c).foldl (fun s n => dfsAux dep f s n) (c :: st.1, st.2) with hst2
      have hcΔ2 : c ∉ Δ2 := fun hmem => (w4 c hmem).1 (List.mem_cons_self _ _)
      have hcst2 : c ∉ st2.2 := by
        rw [w1]
        intro hmem
        rcases List.mem_append.mp hmem with h | h
        · exact hc (h2 c h)
        · exact hcΔ2 h
      rw [hres]
      refine ⟨Δ2 ++ [c], ?_, ?_, ?_, ?_, ?_, ?_, ?_, ?_⟩
      · show st2.2 ++ [c] = st.2 ++ (Δ2 ++ [c])
        rw [w1, List.append_assoc]
      · intro x
        show x ∈ st2.1 ↔ x ∈ st.1 ∨ x ∈ Δ2 ++ [c]
        rw [w2, List.mem_append, List.mem_cons]
        simp only [List.mem_singleton]
        tauto
      · exact (w2 c).mpr (Or.inl (List.mem_cons_self _ _))
      · intro x hx
        rcases List.mem_append.mp hx with hx | hx
        · obtain ⟨hx1, hx2, hx3⟩ := w4 x hx
          exact ⟨fun hmem => hx1 (List.mem_cons_of_mem _ hmem), hx2,
            le_of_lt (hx3 c (List.mem_cons_self _ _))⟩
        · have hxc : x = c := List.mem_singleton.mp hx
          rw [hxc]
          exact ⟨hc, h5, le_rfl⟩
      · show (st2.2 ++ [c]).Nodup
        rw [List.nodup_append]
        refine ⟨w5, List.nodup_singleton c, ?_⟩
        intro x hx hx2
        have hxc : x = c := List.mem_singleton.mp hx2
        rw [hxc] at hx
        exact hcst2 hx
      · intro x hx
        rcases w6 x hx with h | h
        · rcases List.mem_cons.mp h with h2 | h2
          · rw [h2]
            exact Or.inr (List.mem_append_right _ (List.mem_cons_self _ _))
          · exact Or.inl h2
        · exact Or.inr (List.mem_append_left _ h)
      · intro x hx
        rcases List.mem_append.mp hx with h | h
        · exact w7 x h
        · have hxc : x = c := List.mem_singleton.mp h
          rw [hxc]
          exact (w2 c).mpr (Or.inl (List.mem_cons_self _ _))
      · intro x hx d hd
        rcases List.mem_append.mp hx with hx | hx
        · exact (w8 x hx d hd).append_right
        · have hxc : x = c := List.mem_singleton.mp hx
          rw [hxc] at hd ⊢
          have hdin : d ∈ st2.1 := w3 d hd
          rcases w6 d hdin with h | h
          · exfalso
            rcases List.mem_cons.mp h with h2 | h2
            · rw [h2] at hd
              exact absurd (hrank c c hd) (lt_irrefl _)
            · exact absurd (hrank c d hd) (not_lt.mpr (le_of_lt (h6 d h2)))
          · exact before_append_singleton h

theorem dfsOrder_spec (dep : String → List String) (components : List String)
    (rank : String → ℕ)
    (hdepU : ∀ c d, d ∈ dep c → d ∈ components)
    (hrank : ∀ c d, d ∈ dep c → rank d < rank c) :
    (dfsOrder dep components).Nodup ∧
    (∀ n ∈ components, n ∈ dfsOrder dep components) ∧
    (∀ x ∈ dfsOrder dep components, x ∈ components) ∧
    (∀ x ∈ dfsOrder dep components, ∀ d ∈ dep x, Before (dfsOrder dep components) d x) := by
  have main : ∀ (ns : List String), (∀ n ∈ ns, n ∈ components) →
      ∀ st : List String × List String,
        (∀ x ∈ st.1, x ∈ st.2) →
        (∀ x ∈ st.2, x ∈ st.1) →
        st.2.Nodup →
        (∀ x ∈ st.2, ∀ d ∈ dep x, Before st.2 d x) →
        (∀ x ∈ st.2, x ∈ components) →
        (ns.foldl (fun s c => dfsAux dep (components.length + 1) s c) st).2.Nodup ∧
        (∀ n ∈ ns,
          n ∈ (ns.foldl (fun s c => dfsAux dep (components.length + 1) s c) st).2) ∧
        (∀ x ∈ st.2,
          x ∈ (ns.foldl (fun s c => dfsAux dep (components.length + 1) s c) st).2) ∧
        (∀ x ∈ (ns.foldl (fun s c => dfsAux dep (components.length + 1) s c) st).2,
          x ∈ components) ∧
        (∀ x ∈ (ns.foldl (fun s c => dfsAux dep (components.length + 1) s c) st).2,
          ∀ d ∈ dep x,
            Before (ns.foldl (fun s c => dfsAux dep (components.length + 1) s c) st).2
              d x) := by
    intro ns
    induction ns with
    | nil =>
      intro _ st p1 p2 p3 p4 p5
      exact ⟨p3, fun n hn => absurd hn (List.not_mem_nil n), fun x hx => hx, p5, p4⟩
    | cons n rest ihf =>
      intro hmem st p1 p2 p3 p4 p5
      obtain ⟨Δ, q1, q2, q3, q4, q5, q6, q7, q8⟩ :=
        dfsAux_spec dep components rank hdepU hrank (components.length + 1) st n []
          (fun x hx => Or.inr (p1 x hx)) p2 p3
          (Nat.lt_succ_of_le (List.length_filter_le _ _)) (hmem n (List.mem_cons_self _ _))
          (fun x hx => absurd hx (List.not_mem_nil x))
      set stA := dfsAux dep (components.length + 1) st n with hstA
      have p1' : ∀ x ∈ stA.1, x ∈ stA.2 := by
        intro x hx
        rcases q6 x hx with h | h
        · exact absurd h (List.not_mem_nil x)
        · exact h
      have p4' : ∀ x ∈ stA.2, ∀ d ∈ dep x, Before stA.2 d x := by
        intro x hx d hd
        rw [q1] at hx
        rcases List.mem_append.mp hx with h | h
        · rw [q1]
          exact (p4 x h d hd).append_right
        · exact q8 x h d hd
      have p5' : ∀ x ∈ stA.2, x ∈ components := by
        intro x hx
        rw [q1] at hx
        rcases List.mem_append.mp hx with h | h
        · exact p5 x h
        · exact (q4 x h).2.1
      obtain ⟨r1, r2, r3, r4, r5⟩ :=
        ihf (fun m hm => hmem m (List.mem_cons_of_mem _ hm)) stA p1' q7 q5 p4' p5'
      rw [List.foldl_cons]
      have hkeep : ∀ x ∈ st.2,
          x ∈ (rest.foldl (fun s c => dfsAux dep (components.length + 1) s c) stA).2 := by
        intro x hx
        apply r3
        rw [q1]
        exact List.mem_append_left _ hx
      refine ⟨r1, ?_, hkeep, r4, r5⟩
      intro m hm
      rcases List.mem_cons.mp hm with h | h
      · rw [h]
        exact r3 n (p1' n q3)
      · exact r2 m h
  obtain ⟨m1, m2, m3, m4, m5⟩ := main components (fun n hn => hn) ([], [])
    (fun x hx => absurd hx (List.not_mem_nil x))
    (fun x hx => absurd hx (List.not_mem_nil x))
    List.nodup_nil
    (fun x hx => absurd hx (List.not_mem_nil x))
    (fun x hx => absurd hx (List.not_mem_nil x))
  exact ⟨m1, m2, m4, m5⟩

theorem dependentsOf_mem_selected (selected : List String)
    (deps_map : List (String × List String)) (d : String) :
    ∀ c ∈ dependentsOf selected deps_map d, c ∈ selected := by
  have main : ∀ (dm : List (String × List String)) (acc : List String),
      (∀ x ∈ acc, x ∈ selected) →
      ∀ c ∈ dm.foldl
        (fun acc p =>
          if p.1 ∈ selected then
            acc ++ (p.2.filter (fun x => decide (x ∈ selected) && decide (x = d))).map
              (fun _ => p.1)
          else acc) acc, c ∈ selected := by
    intro dm
    induction dm with
    | nil => intro acc hacc c hc; exact hacc c hc
    | cons p dm ih =>
      intro acc hacc c hc
      rw [List.foldl_cons] at hc
      by_cases hp : p.1 ∈ selected
      · rw [if_pos hp] at hc
        refine ih _ ?_ c hc
        intro x hx
        rcases List.mem_append.mp hx with h | h
        · exact hacc x h
        · obtain ⟨y, _, rfl⟩ := List.mem_map.mp h
          exact hp
      · rw [if_neg hp] at hc
        exact ih _ hacc c hc
  exact main deps_map [] (fun x hx => absurd hx (List.not_mem_nil x))

theorem backwardFinish_spec (dep : String → List String) (S : ℤ)
    (durations : String → ℤ) (assembly_end : Option ℤ) (assembly_name : Option String) :
    ∀ (rest done : List String) (fin : List (String × ℤ)),
      (done ++ rest).Nodup →
      (∀ x ∈ done ++ rest, ∀ d ∈ dep x, Before (done ++ rest) d x) →
      (∀ k, (lookupA fin k).isSome ↔ k ∈ done) →
      (∀ c ∈ done, ∀ D ∈ dep c, ∃ vc vD, lookupA fin c = some vc ∧
        lookupA fin D = some vD ∧ vc ≤ vD - durations D) →
      (∀ c ∈ done, dep c ≠ [] → lookupA fin c =
        ((dep c).filterMap (fun D => (lookupA fin D).map (fun v => v - durations D))).min?) →
      let res := rest.foldl
        (fun fin c =>
          if dep c = [] then
            match assembly_name, assembly_end with
            | some nm, some e =>
              if ¬ nm = "" ∧ c = nm then updAssoc fin c e else updAssoc fin c S
            | _, _ => updAssoc fin c S
          else
            let starts := (dep c).filterMap
              (fun depd => (lookupA fin depd).map (fun v => v - durations depd))
            match starts.min? with
            | some m => updAssoc fin c m
            | Option.none => updAssoc fin c S) fin
      (∀ k, (lookupA res k).isSome ↔ k ∈ done ++ rest) ∧
      (∀ c ∈ done ++ rest, ∀ D ∈ dep c, ∃ vc vD, lookupA res c = some vc ∧
        lookupA res D = some vD ∧ vc ≤ vD - durations D) ∧
      (∀ c ∈ done ++ rest, dep c ≠ [] → lookupA res c =
        ((dep c).filterMap (fun D => (lookupA res D).map (fun v => v - durations D))).min?) := by
  intro rest
  induction rest with
  | nil =>
    intro done fin hnd hbef hkeys hcon hmin
    refine ⟨?_, ?_, ?_⟩
    · intro k
      rw [List.append_nil]
      exact hkeys k
    · intro c hc D hD
      rw [List.append_nil] at hc
      exact hcon c hc D hD
    · intro c hc hdc
      rw [List.append_nil] at hc
      exact hmin c hc hdc
  | cons c rest ih =>
    intro done fin hnd hbef hkeys hcon hmin
    -- the new binding for c
    have hcdone : c ∉ done := by
      intro hmem
      rw [List.nodup_append] at hnd
      exact hnd.2.2 hmem (List.mem_cons_self _ _)
    have hdepdone : ∀ D ∈ dep c, D ∈ done := by
      intro D hD
      exact before_mem_prefix
        (hbef c (List.mem_append_right _ (List.mem_cons_self _ _)) D hD) hnd
    -- the value written for c
    set fin2 := (if dep c = [] then
        match assembly_name, assembly_end with
        | some nm, some e =>
          if ¬ nm = "" ∧ c = nm then updAssoc fin c e else updAssoc fin c S
        | _, _ => updAssoc fin c S
      else
        let starts := (dep c).filterMap
          (fun depd => (lookupA fin depd).map (fun v => v - durations depd))
        match starts.min? with
        | some m => updAssoc fin c m
        | Option.none => updAssoc fin c S) with hfin2
    have hfin2some : ∃ v : ℤ, fin2 = updAssoc fin c v := by
      rw [hfin2]
      by_cases hdc : dep c = []
      · rw [if_pos hdc]
        cases assembly_name with
        | none => exact ⟨S, rfl⟩
        | some nm =>
          cases assembly_end with
          | none => exact ⟨S, rfl⟩
          | some e =>
            show ∃ v, (if ¬ nm = "" ∧ c = nm then updAssoc fin c e else updAssoc fin c S)
              = updAssoc fin c v
            by_cases hnm : ¬ nm = "" ∧ c = nm
            · rw [if_pos hnm]; exact ⟨e, rfl⟩
            · rw [if_neg hnm]; exact ⟨S, rfl⟩
      · rw [if_neg hdc]
        cases hm : ((dep c).filterMap
            (fun depd => (lookupA fin depd).map (fun v => v - durations depd))).min? with
        | none => exact ⟨S, by simp [hm]⟩
        | some m => exact ⟨m, by simp [hm]⟩

    obtain ⟨vc, hvc⟩ := hfin2some
    have hlook2 : ∀ k, lookupA fin2 k = if k = c then some vc else lookupA fin k := by
      intro k
      rw [hvc, lookupA_updAssoc]
    -- keys after writing c
    have hkeys2 : ∀ k, (lookupA fin2 k).isSome ↔ k ∈ done ++ [c] := by
      intro k
      rw [hlook2]
      by_cases hk : k = c
      · simp [hk]
      · simp only [if_neg hk, hkeys]
        simp [hk]
    -- old lookups of done-keys are unchanged
    have hstable : ∀ k, k ∈ done → lookupA fin2 k = lookupA fin k := by
      intro k hk
      rw [hlook2, if_neg]
      intro hkc
      exact hcdone (hkc ▸ hk)
    -- the stored value for c satisfies the dependent constraints
    have hcval : ∀ D ∈ dep c, ∃ vD, lookupA fin D = some vD ∧ vc ≤ vD - durations D := by
      intro D hD
      have hDdone := hdepdone D hD
      have hDsome : (lookupA fin D).isSome := (hkeys D).mpr hDdone
      obtain ⟨vD, hvD⟩ := Option.isSome_iff_exists.mp hDsome
      refine ⟨vD, hvD, ?_⟩
      -- in this case dep c ≠ [], so the min? branch was taken
      have hdc : dep c ≠ [] := by
        intro hz
        rw [hz] at hD
        exact absurd hD (List.not_mem_nil D)
      have hmem2 : vD - durations D ∈ (dep c).filterMap
          (fun depd => (lookupA fin depd).map (fun v => v - durations depd)) :=
        List.mem_filterMap.mpr ⟨D, hD, by rw [hvD]; rfl⟩
      have hminsome : ∃ m, ((dep c).filterMap
          (fun depd => (lookupA fin depd).map (fun v => v - durations depd))).min?
            = some m ∧ vc = m := by
        rw [hfin2, if_neg hdc] at hvc
        cases hm : ((dep c).filterMap
            (fun depd => (lookupA fin depd).map (fun v => v - durations depd))).min? with
        | none =>
          exfalso
          rw [List.min?_eq_none_iff] at hm
          rw [hm] at hmem2
          exact absurd hmem2 (List.not_mem_nil _)
        | some m =>
          refine ⟨m, rfl, ?_⟩
          simp only [hm] at hvc
          -- updAssoc fin c m = updAssoc fin c vc gives m = vc by looking up c
          have h2 := congrArg (fun l => lookupA l c) hvc
          simp only [lookupA_updAssoc] at h2
          simp at h2
          omega
      obtain ⟨m, hm, rfl⟩ := hminsome
      exact min?_le_of_mem hmem2 hm
    -- the min? characterisation for c
    have hcmin : dep c ≠ [] → lookupA fin2 c =
        ((dep c).filterMap (fun D => (lookupA fin2 D).map (fun v => v - durations D))).min? := by
      intro hdc
      have hmaps : (dep c).filterMap (fun D => (lookupA fin2 D).map (fun v => v - durations D)) =
          (dep c).filterMap (fun D => (lookupA fin D).map (fun v => v - durations D)) := by
        apply List.filterMap_congr
        intro D hD
        rw [hstable D (hdepdone D hD)]
      rw [hmaps, hlook2, if_pos rfl]
      rw [hfin2, if_neg hdc] at hvc
      cases hm : ((dep c).filterMap
          (fun depd => (lookupA fin depd).map (fun v => v - durations depd))).min? with
      | none =>
        exfalso
        obtain ⟨D, hD⟩ := List.exists_mem_of_ne_nil _ hdc
        have hDdone := hdepdone D hD
        obtain ⟨vD, hvD⟩ := Option.isSome_iff_exists.mp ((hkeys D).mpr hDdone)
        have hmem2 : vD - durations D ∈ (dep c).filterMap
            (fun depd => (lookupA fin depd).map (fun v => v - durations depd)) :=
          List.mem_filterMap.mpr ⟨D, hD, by rw [hvD]; rfl⟩
        rw [List.min?_eq_none_iff] at hm
        rw [hm] at hmem2
        exact absurd hmem2 (List.not_mem_nil _)
      | some m =>
        simp only [hm] at hvc
        have h2 := congrArg (fun l => lookupA l c) hvc
        simp only [lookupA_updAssoc] at h2
        simp at h2
        simp only [Option.some.injEq]
        omega
    -- apply the induction hypothesis with done' = done ++ [c]
    have hassoc : (done ++ [c]) ++ rest = done ++ c :: rest := by simp
    have hnd2 : ((done ++ [c]) ++ rest).Nodup := by rw [hassoc]; exact hnd
    have hbef2 : ∀ x ∈ (done ++ [c]) ++ rest, ∀ d ∈ dep x,
        Before ((done ++ [c]) ++ rest) d x := by
      rw [hassoc]; exact hbef
    have hcon2 : ∀ c2 ∈ done ++ [c], ∀ D ∈ dep c2, ∃ v2 vD, lookupA fin2 c2 = some v2 ∧
        lookupA fin2 D = some vD ∧ v2 ≤ vD - durations D := by
      intro c2 hc2 D hD
      rcases List.mem_append.mp hc2 with h | h
      · obtain ⟨v2, vD, hv2, hvD, hle⟩ := hcon c2 h D hD
        have hDdone : D ∈ done := (hkeys D).mp (by rw [hvD]; rfl)
        rw [← hstable c2 h] at hv2
        rw [← hstable D hDdone] at hvD
        exact ⟨v2, vD, hv2, hvD, hle⟩
      · have hc2c : c2 = c := List.mem_singleton.mp h
        obtain ⟨vD, hvD, hle⟩ := hcval D (hc2c ▸ hD)
        have hDdone : D ∈ done := (hkeys D).mp (by rw [hvD]; rfl)
        refine ⟨vc, vD, ?_, ?_, hle⟩
        · rw [hc2c, hlook2, if_pos rfl]
        · rw [hstable D hDdone]
          exact hvD
    have hmin2 : ∀ c2 ∈ done ++ [c], dep c2 ≠ [] → lookupA fin2 c2 =
        ((dep c2).filterMap (fun D => (lookupA fin2 D).map (fun v => v - durations D))).min? := by
      intro c2 hc2 hdc2
      rcases List.mem_append.mp hc2 with h | h
      · have hmaps : (dep c2).filterMap
            (fun D => (lookupA fin2 D).map (fun v => v - durations D)) =
            (dep c2).filterMap (fun D => (lookupA fin D).map (fun v => v - durations D)) := by
          apply List.filterMap_congr
          intro D hD
          obtain ⟨v2, vD, _, hvD, _⟩ := hcon c2 h D hD
          have hDdone : D ∈ done := (hkeys D).mp (by rw [hvD]; rfl)
          rw [hstable D hDdone]
        rw [hmaps, hstable c2 h]
        exact hmin c2 h hdc2
      · have hc2c : c2 = c := List.mem_singleton.mp h
        rw [hc2c]
        exact hcmin (hc2c ▸ hdc2)
    have hkeys2' : ∀ k, (lookupA fin2 k).isSome ↔ k ∈ done ++ [c] := hkeys2
    obtain ⟨z1, z2, z3⟩ := ih (done ++ [c]) fin2 hnd2 hbef2 hkeys2' hcon2 hmin2
    rw [hassoc] at z1 z2 z3
    rw [List.foldl_cons]
    exact ⟨z1, z2, z3⟩

theorem find?_map_rows (rowOf : String → ScheduleRow)
    (hname : ∀ c, (rowOf c).composant = c) :
    ∀ (cs : List String) (D : String), D ∈ cs →
      ((cs.map rowOf).find? (fun rr => rr.composant == D)) = some (rowOf D) := by
  intro cs
  induction cs with
  | nil => intro D hD; cases hD
  | cons c cs ih =>
    intro D hD
    rw [List.map_cons]
    by_cases hc : c = D
    · rw [List.find?_cons_of_pos _ (by simp [hname, hc])]
      rw [hc]
    · rw [List.find?_cons_of_neg _ (by simp [hname, hc])]
      apply ih
      rcases List.mem_cons.mp hD with h | h
      · exact absurd h.symm hc
      · exact h

/-- C5 (amended): on a dependency map whose restriction to the selection is
acyclic (witnessed by a rank function decreasing along dependent edges),
every scheduled component finishes no later than `finish(D) - leadDays(D)`
for each of its dependents `D` in the selection, and the finish of a
component with dependents is exactly the minimum of those bounds. -/
theorem backward_schedule_constraints (components : List String)
    (deps_map : List (String × List String)) (S : ℤ) (durations : String → ℤ)
    (assembly_end : Option ℤ) (assembly_name : Option String) (rank : String → ℕ)
    (hrank : ∀ c d, d ∈ dependentsOf components deps_map c → rank d < rank c) :
    ∀ r ∈ backward_schedule_with_deps components deps_map S durations
        assembly_end assembly_name,
      (∀ D ∈ dependentsOf components deps_map r.composant,
        ∀ rD ∈ backward_schedule_with_deps components deps_map S durations
            assembly_end assembly_name,
          rD.composant = D → r.finish ≤ rD.finish - durations D) ∧
      (dependentsOf components deps_map r.composant ≠ [] →
        ((dependentsOf components deps_map r.composant).filterMap
          (fun D => ((backward_schedule_with_deps components deps_map S durations
              assembly_end assembly_name).find?
            (fun rr => rr.composant == D)).map
            (fun rr => rr.finish - durations D))).min? = some r.finish) := by
  have hdepU : ∀ c d, d ∈ dependentsOf components deps_map c → d ∈ components :=
    fun c d hd => dependentsOf_mem_selected components deps_map c d hd
  obtain ⟨o1, o2, o3, o4⟩ :=
    dfsOrder_spec (dependentsOf components deps_map) components rank hdepU hrank
  obtain ⟨k1, k2, k3⟩ :=
    backwardFinish_spec (dependentsOf components deps_map) S durations assembly_end
      assembly_name (dfsOrder (dependentsOf components deps_map) components) [] []
      (by simpa using o1) (by simpa using o4)
      (by intro k; simp [lookupA])
      (by intro c hc; cases hc)
      (by intro c hc; cases hc)
  simp only [List.nil_append] at k1 k2 k3
  -- the computed finish dictionary
  set FIN := backwardFinish (dependentsOf components deps_map)
    (dfsOrder (dependentsOf components deps_map) components) S durations assembly_end
    assembly_name with hFIN
  -- `FIN` is definitionally the fold in `backwardFinish_spec`
  have k1 : ∀ k, (lookupA FIN k).isSome ↔
      k ∈ dfsOrder (dependentsOf components deps_map) components := k1
  have k2 : ∀ c ∈ dfsOrder (dependentsOf components deps_map) components,
      ∀ D ∈ dependentsOf components deps_map c, ∃ vc vD, lookupA FIN c = some vc ∧
        lookupA FIN D = some vD ∧ vc ≤ vD - durations D := k2
  have k3 : ∀ c ∈ dfsOrder (dependentsOf components deps_map) components,
      dependentsOf components deps_map c ≠ [] → lookupA FIN c =
        ((dependentsOf components deps_map c).filterMap
          (fun D => (lookupA FIN D).map (fun v => v - durations D))).min? := k3
  -- the rows
  have hrows : backward_schedule_with_deps components deps_map S durations
      assembly_end assembly_name = components.map (fun c =>
        { composant := c, start := (lookupA FIN c).getD S - durations c,
          finish := (lookupA FIN c).getD S }) := rfl
  have hfind : ∀ D ∈ components,
      ((backward_schedule_with_deps components deps_map S durations assembly_end
          assembly_name).find? (fun rr => rr.composant == D)) = some
        { composant := D, start := (lookupA FIN D).getD S - durations D,
          finish := (lookupA FIN D).getD S } := by
    intro D hD
    rw [hrows]
    exact find?_map_rows _ (fun c => rfl) components D hD
  intro r hr
  rw [hrows] at hr
  obtain ⟨c, hc, hrc⟩ := List.mem_map.mp hr
  have hcomp : r.composant = c := by rw [← hrc]
  have hfinish : r.finish = (lookupA FIN c).getD S := by rw [← hrc]
  have hco : c ∈ dfsOrder (dependentsOf components deps_map) components := o2 c hc
  obtain ⟨vc, hvc⟩ := Option.isSome_iff_exists.mp ((k1 c).mpr hco)
  constructor
  · intro D hD rD hrD hname
    rw [hcomp] at hD
    obtain ⟨vc2, vD, hvc2, hvD, hle⟩ := k2 c hco D hD
    rw [hrows] at hrD
    obtain ⟨c2, _, hrc2⟩ := List.mem_map.mp hrD
    have hc2D : c2 = D := by rw [← hname, ← hrc2]
    have hrDfin : rD.finish = (lookupA FIN D).getD S := by
      rw [← hrc2, hc2D]
    rw [hfinish, hrDfin, hvc2, hvD]
    simpa using hle
  · intro hne
    rw [hcomp] at hne ⊢
    have hk3 := k3 c hco hne
    have hmaps : (dependentsOf components deps_map c).filterMap
        (fun D => ((backward_schedule_with_deps components deps_map S durations
            assembly_end assembly_name).find?
          (fun rr => rr.composant == D)).map (fun rr => rr.finish - durations D)) =
        (dependentsOf components deps_map c).filterMap
          (fun D => (lookupA FIN D).map (fun v => v - durations D)) := by
      apply List.filterMap_congr
      intro D hD
      have hDc : D ∈ components := hdepU c D hD
      rw [hfind D hDc]
      obtain ⟨vD, hvD⟩ := Option.isSome_iff_exists.mp ((k1 D).mpr (o2 D hDc))
      rw [hvD]
      simp
    rw [hmaps, ← hk3, hfinish, hvc]
    simp

theorem dependentsOf_chainEx (c : String) :
    dependentsOf ["A", "B"] dmChainEx c = if "A" = c then ["B"] else [] := by
  by_cases h : "A" = c
  · rw [if_pos h]
    simp only [dependentsOf, dmChainEx, List.foldl_cons, List.foldl_nil]
    rw [if_pos (by decide)]
    simp [List.filter, h]
  · rw [if_neg h]
    simp only [dependentsOf, dmChainEx, List.foldl_cons, List.foldl_nil]
    rw [if_pos (by decide)]
    simp only [List.filter]
    have hd : decide ("A" = c) = false := decide_eq_false h
    simp [hd]

theorem rank_chainEx : ∀ c d, d ∈ dependentsOf ["A", "B"] dmChainEx c →
    rankChainEx d < rankChainEx c := by
  intro c d hd
  rw [dependentsOf_chainEx] at hd
  by_cases h : "A" = c
  · rw [if_pos h] at hd
    have hdB : d = "B" := List.mem_singleton.mp hd
    rw [hdB, ← h]
    decide
  · rw [if_neg h] at hd
    exact absurd hd (List.not_mem_nil d)

/-- Witness for C5 at a two-component chain `B depends on A` with milestone
100 and lead days A=2, B=3: A finishes at 97 = finish(B) − lead(B). -/
theorem backward_schedule_constraints_witness :
    (∀ r ∈ backward_schedule_with_deps ["A", "B"] dmChainEx 100 durChainEx
        Option.none Option.none,
      (∀ D ∈ dependentsOf ["A", "B"] dmChainEx r.composant,
        ∀ rD ∈ backward_schedule_with_deps ["A", "B"] dmChainEx 100 durChainEx
            Option.none Option.none,
          rD.composant = D → r.finish ≤ rD.finish - durChainEx D) ∧
      (dependentsOf ["A", "B"] dmChainEx r.composant ≠ [] →
        ((dependentsOf ["A", "B"] dmChainEx r.composant).filterMap
          (fun D => ((backward_schedule_with_deps ["A", "B"] dmChainEx 100 durChainEx
              Option.none Option.none).find?
            (fun rr => rr.composant == D)).map
            (fun rr => rr.finish - durChainEx D))).min? = some r.finish)) ∧
    backward_schedule_with_deps ["A", "B"] dmChainEx 100 durChainEx
        Option.none Option.none =
      [{ composant := "A", start := 95, finish := 97 },
       { composant := "B", start := 97, finish := 100 }] :=
  ⟨backward_schedule_constraints ["A", "B"] dmChainEx 100 durChainEx
      Option.none Option.none rankChainEx rank_chainEx,
    by decide⟩

/-- Counterexample for C5 as stated: on the mutually cyclic map A↔B the
backward scheduler's output violates
`finish(component) ≤ finish(dependent) − leadDays(dependent)` — component B
finishes at 100 while its dependent A finishes at 97 with lead 2. -/
theorem backward_schedule_cycle_cex :
    ¬ (∀ r ∈ backward_schedule_with_deps ["A", "B"] dmCycleEx 100 durChainEx
        Option.none Option.none,
      ∀ D ∈ dependentsOf ["A", "B"] dmCycleEx r.composant,
        ∀ rD ∈ backward_schedule_with_deps ["A", "B"] dmCycleEx 100 durChainEx
            Option.none Option.none,
          rD.composant = D → r.finish ≤ rD.finish - durChainEx D) := by
  decide

/-! ### Forward scheduler: every component gets resolved -/

theorem resolveComp_isSome (sbc : String → Option ℤ) (lead : String → ℤ) (today : ℤ)
    (st : FwdState) (comp : String) (dep_fins : List ℤ) (x : String) :
    ((lookupA (resolveComp sbc lead today st comp dep_fins).starts x).isSome ↔
      (x = comp ∨ (lookupA st.starts x).isSome)) ∧
    ((lookupA (resolveComp sbc lead today st comp dep_fins).finishes x).isSome ↔
      (x = comp ∨ (lookupA st.finishes x).isSome)) := by
  constructor
  · show (lookupA (updAssoc st.starts comp _) x).isSome ↔ _
    rw [lookupA_updAssoc]
    by_cases hx : x = comp
    · simp [hx]
    · simp [hx]
  · show (lookupA (updAssoc st.finishes comp _) x).isSome ↔ _
    rw [lookupA_updAssoc]
    by_cases hx : x = comp
    · simp [hx]
    · simp [hx]

theorem passFold_spec (DL : String → List String) (sbc : String → Option ℤ)
    (lead : String → ℤ) (today : ℤ) :
    ∀ (rs : List String) (st0 : FwdState) (keep0 : List String) (b0 : Bool),
      (∀ x, (((lookupA st0.starts x).isSome ∧ (lookupA st0.finishes x).isSome) ∨
          x ∈ keep0 ∨ x ∈ rs) →
        (((lookupA (rs.foldl (passStep DL sbc lead today) (st0, keep0, b0)).1.starts
            x).isSome ∧
          (lookupA (rs.foldl (passStep DL sbc lead today) (st0, keep0, b0)).1.finishes
            x).isSome) ∨
          x ∈ (rs.foldl (passStep DL sbc lead today) (st0, keep0, b0)).2.1)) ∧
      (b0 = true → (rs.foldl (passStep DL sbc lead today) (st0, keep0, b0)).2.2 = true) ∧
      ((rs.foldl (passStep DL sbc lead today) (st0, keep0, b0)).2.1.length +
          (if (rs.foldl (passStep DL sbc lead today) (st0, keep0, b0)).2.2 = true
            then 1 else 0) ≤
        keep0.length + rs.length + (if b0 = true then 1 else 0)) ∧
      ((rs.foldl (passStep DL sbc lead today) (st0, keep0, b0)).2.2 = false →
        (rs.foldl (passStep DL sbc lead today) (st0, keep0, b0)).2.1 = keep0 ++ rs ∧
        (rs.foldl (passStep DL sbc lead today) (st0, keep0, b0)).1 = st0) := by
  intro rs
  induction rs with
  | nil =>
    intro st0 keep0 b0
    refine ⟨?_, fun h => h, ?_, fun _ => ⟨(List.append_nil _).symm, rfl⟩⟩
    · intro x hx
      rcases hx with h | h | h
      · exact Or.inl h
      · exact Or.inr h
      · exact absurd h (List.not_mem_nil x)
    · simp only [List.foldl_nil, List.length_nil, Nat.add_zero]
      omega
  | cons comp rs ih =>
    intro st0 keep0 b0
    rw [List.foldl_cons]
    by_cases hres : (DL comp).all (fun d => (lookupA st0.finishes d).isSome)
    · have hstep : passStep DL sbc lead today (st0, keep0, b0) comp =
          (resolveComp sbc lead today st0 comp
            ((DL comp).filterMap (fun d => lookupA st0.finishes d)), keep0, true) := by
        simp only [passStep]
        rw [if_pos hres]
      rw [hstep]
      obtain ⟨c1, c2, c3, c4⟩ := ih (resolveComp sbc lead today st0 comp
        ((DL comp).filterMap (fun d => lookupA st0.finishes d))) keep0 true
      refine ⟨?_, fun _ => c2 rfl, ?_, ?_⟩
      · intro x hx
        apply c1
        rcases hx with h | h | h
        · exact Or.inl ⟨((resolveComp_isSome sbc lead today st0 comp _ x).1).mpr
            (Or.inr h.1),
            ((resolveComp_isSome sbc lead today st0 comp _ x).2).mpr (Or.inr h.2)⟩
        · exact Or.inr (Or.inl h)
        · rcases List.mem_cons.mp h with h2 | h2
          · exact Or.inl ⟨((resolveComp_isSome sbc lead today st0 comp _ x).1).mpr
              (Or.inl h2),
              ((resolveComp_isSome sbc lead today st0 comp _ x).2).mpr (Or.inl h2)⟩
          · exact Or.inr (Or.inr h2)
      · have := c2 rfl
        simp only [this, if_pos] at c3 ⊢
        simp only [List.length_cons]
        omega
      · intro hfalse
        exact absurd (c2 rfl) (by rw [hfalse]; exact Bool.false_ne_true)
    · have hstep : passStep DL sbc lead today (st0, keep0, b0) comp =
          (st0, keep0 ++ [comp], b0) := by
        simp only [passStep]
        rw [if_neg hres]
      rw [hstep]
      obtain ⟨c1, c2, c3, c4⟩ := ih st0 (keep0 ++ [comp]) b0
      refine ⟨?_, c2, ?_, ?_⟩
      · intro x hx
        apply c1
        rcases hx with h | h | h
        · exact Or.inl h
        · exact Or.inr (Or.inl (List.mem_append_left _ h))
        · rcases List.mem_cons.mp h with h2 | h2
          · refine Or.inr (Or.inl (List.mem_append_right _ ?_))
            rw [h2]
            simp
          · exact Or.inr (Or.inr h2)
      · simp only [List.length_append, List.length_cons, List.length_nil] at c3 ⊢
        omega
      · intro hfalse
        obtain ⟨hk, hs⟩ := c4 hfalse
        refine ⟨?_, hs⟩
        rw [hk, List.append_assoc]
        rfl

theorem forceResolve_isSome (DL : String → List String) (sbc : String → Option ℤ)
    (lead : String → ℤ) (today : ℤ) :
    ∀ (rs : List String) (st0 : FwdState) (x : String),
      (((lookupA st0.starts x).isSome ∧ (lookupA st0.finishes x).isSome) ∨ x ∈ rs) →
      ((lookupA (forceResolve DL sbc lead today st0 rs).starts x).isSome ∧
       (lookupA (forceResolve DL sbc lead today st0 rs).finishes x).isSome) := by
  intro rs
  induction rs with
  | nil =>
    intro st0 x hx
    rcases hx with h | h
    · exact h
    · exact absurd h (List.not_mem_nil x)
  | cons comp rs ih =>
    intro st0 x hx
    show ((lookupA ((rs.foldl _ (resolveComp sbc lead today st0 comp _))).starts x).isSome ∧ _)
    apply ih
    rcases hx with h | h
    · exact Or.inl ⟨((resolveComp_isSome sbc lead today st0 comp _ x).1).mpr (Or.inr h.1),
        ((resolveComp_isSome sbc lead today st0 comp _ x).2).mpr (Or.inr h.2)⟩
    · rcases List.mem_cons.mp h with h2 | h2
      · exact Or.inl ⟨((resolveComp_isSome sbc lead today st0 comp _ x).1).mpr (Or.inl h2),
          ((resolveComp_isSome sbc lead today st0 comp _ x).2).mpr (Or.inl h2)⟩
      · exact Or.inr h2

theorem fwdLoop_resolves (DL : String → List String) (sbc : String → Option ℤ)
    (lead : String → ℤ) (today : ℤ) :
    ∀ (fuel : ℕ) (st : FwdState) (rem : List String),
      (rem = [] ∨ rem.length + 1 ≤ fuel) →
      ∀ x, (((lookupA st.starts x).isSome ∧ (lookupA st.finishes x).isSome) ∨ x ∈ rem) →
        ((lookupA (fwdLoop DL sbc lead today fuel st rem).starts x).isSome ∧
         (lookupA (fwdLoop DL sbc lead today fuel st rem).finishes x).isSome) := by
  intro fuel
  induction fuel with
  | zero =>
    intro st rem hfuel x hx
    have hrem : rem = [] := by
      rcases hfuel with h | h
      · exact h
      · omega
    subst hrem
    rcases hx with h | h
    · exact h
    · exact absurd h (List.not_mem_nil x)
  | succ b ih =>
    intro st rem hfuel x hx
    by_cases hrem : rem = []
    · have hres : fwdLoop DL sbc lead today (b + 1) st rem = st := by
        rw [fwdLoop, if_pos hrem]
      rw [hres]
      rcases hx with h | h
      · exact h
      · rw [hrem] at h
        exact absurd h (List.not_mem_nil x)
    · have hres : fwdLoop DL sbc lead today (b + 1) st rem =
          (if (passOnce DL sbc lead today st rem).2.2 then
            fwdLoop DL sbc lead today b (passOnce DL sbc lead today st rem).1
              (passOnce DL sbc lead today st rem).2.1
          else forceResolve DL sbc lead today (passOnce DL sbc lead today st rem).1
            (passOnce DL sbc lead today st rem).2.1) := by
        rw [fwdLoop, if_neg hrem]
      rw [hres]
      obtain ⟨c1, _, c3, c4⟩ := passFold_spec DL sbc lead today rem st [] false
      have hcarry : ((lookupA (passOnce DL sbc lead today st rem).1.starts x).isSome ∧
          (lookupA (passOnce DL sbc lead today st rem).1.finishes x).isSome) ∨
          x ∈ (passOnce DL sbc lead today st rem).2.1 := by
        apply c1
        rcases hx with h | h
        · exact Or.inl h
        · exact Or.inr (Or.inr h)
      cases hprog : (passOnce DL sbc lead today st rem).2.2 with
      | true =>
        rw [if_pos rfl]
        have hprog2 : (List.foldl (passStep DL sbc lead today) (st, [], false) rem).2.2
            = true := hprog
        rw [hprog2] at c3
        simp at c3
        apply ih
        · right
          have hlen : rem.length + 1 ≤ b + 1 := by
            rcases hfuel with h | h
            · exact absurd h hrem
            · exact h
          show (List.foldl (passStep DL sbc lead today) (st, [], false) rem).2.1.length
            + 1 ≤ b
          omega
        · exact hcarry
      | false =>
        rw [if_neg Bool.false_ne_true]
        apply forceResolve_isSome
        exact hcarry

theorem fwdRows_eq_map (st : FwdState) :
    ∀ cs : List String,
      (∀ c ∈ cs, (lookupA st.starts c).isSome ∧ (lookupA st.finishes c).isSome) →
      fwdRows st cs =
      cs.map (fun comp =>
        { composant := comp, start := (lookupA st.starts comp).getD 0,
          finish := (lookupA st.finishes comp).getD 0 }) := by
  intro cs
  induction cs with
  | nil => intro _; rfl
  | cons c cs ih =>
    intro hall
    obtain ⟨hs, hf⟩ := hall c (List.mem_cons_self _ _)
    obtain ⟨s, hs2⟩ := Option.isSome_iff_exists.mp hs
    obtain ⟨f, hf2⟩ := Option.isSome_iff_exists.mp hf
    show (c :: cs).filterMap _ = _
    simp only [List.filterMap_cons, List.map_cons, hs2, hf2, Option.getD_some]
    rw [show cs.filterMap (fun comp =>
        match lookupA st.starts comp, lookupA st.finishes comp with
        | some s, some f =>
          some ({ composant := comp, start := s, finish := f } : ScheduleRow)
        | _, _ => Option.none) = fwdRows st cs from rfl]
    rw [ih (fun c2 hc2 => hall c2 (List.mem_cons_of_mem _ hc2))]

/-- C7 (amended): both schedulers are total. The backward scheduler returns
exactly one row per requested component. The forward scheduler's relaxation
loop (bounded by 3 × the component count) together with the force-resolve
fallback resolves every requested component, so the output is one row per
requested component followed by at most one appended assembly row; when the
designated assembly component is itself requested, that appended row is a
second row bearing its name. -/
theorem schedulers_one_row_each (components : List String)
    (deps_map : List (String × List String)) (sbc : String → Option ℤ)
    (lead : String → ℤ) (aName : String) (aDays : ℤ) (today : ℤ) (S : ℤ)
    (durations : String → ℤ) (aEnd : Option ℤ) (aNameB : Option String) :
    (backward_schedule_with_deps components deps_map S durations aEnd aNameB).map
      ScheduleRow.composant = components ∧
    ∃ rows0 extra,
      forward_schedule_with_custom_starts components deps_map sbc lead aName aDays today
        = rows0 ++ extra ∧
      rows0.map ScheduleRow.composant = components ∧
      (extra = [] ∨ ∃ a b : ℤ, extra = [{ composant := aName, start := a, finish := b }]) := by
  constructor
  · show (components.map _).map ScheduleRow.composant = components
    rw [List.map_map]
    have hcomp : (ScheduleRow.composant ∘ fun c =>
        ({ composant := c,
           start := (lookupA (backwardFinish (dependentsOf components deps_map)
             (dfsOrder (dependentsOf components deps_map) components) S durations aEnd
               aNameB) c).getD S - durations c,
           finish := (lookupA (backwardFinish (dependentsOf components deps_map)
             (dfsOrder (dependentsOf components deps_map) components) S durations aEnd
               aNameB) c).getD S } : ScheduleRow)) = fun c => c := rfl
    rw [hcomp, List.map_id']
  · set DL := fun c => (depsOf deps_map c).filter (fun d => decide (d ∈ components))
      with hDL
    set ST := fwdLoop DL sbc lead today (components.length * 3) ⟨[], []⟩ components.dedup
      with hST
    have hfuel : components.dedup = [] ∨
        components.dedup.length + 1 ≤ components.length * 3 := by
      cases hcs : components with
      | nil => left; rfl
      | cons c cs =>
        right
        have h1 : (c :: cs).dedup.length ≤ (c :: cs).length :=
          (List.dedup_sublist _).length_le
        have h2 : 1 ≤ (c :: cs).length := by simp
        omega
    have hall : ∀ c ∈ components,
        (lookupA ST.starts c).isSome ∧ (lookupA ST.finishes c).isSome := by
      intro c hc
      apply fwdLoop_resolves DL sbc lead today _ _ _ hfuel
      exact Or.inr (List.mem_dedup.mpr hc)
    have hrows := fwdRows_eq_map ST components hall
    have hnames : (fwdRows ST components).map ScheduleRow.composant = components := by
      rw [hrows, List.map_map]
      have hcomp : (ScheduleRow.composant ∘ fun comp =>
          ({ composant := comp, start := (lookupA ST.starts comp).getD 0,
             finish := (lookupA ST.finishes comp).getD 0 } : ScheduleRow)) =
          fun c => c := rfl
      rw [hcomp, List.map_id']
    set AD := (depsOf deps_map aName).filter (fun d => decide (d ∈ components)) with hAD
    have hunfold : forward_schedule_with_custom_starts components deps_map sbc lead aName
        aDays today =
        (if aName ∈ components ∨
            (AD ≠ [] ∧ AD.all (fun d => (lookupA ST.finishes d).isSome)) then
          fwdRows ST components ++
            [{ composant := aName, start := fwdAsmStart ST AD today,
               finish := fwdAsmStart ST AD today + aDays }]
        else fwdRows ST components) := rfl
    by_cases hcond : aName ∈ components ∨
        (AD ≠ [] ∧ AD.all (fun d => (lookupA ST.finishes d).isSome))
    · refine ⟨fwdRows ST components,
        [{ composant := aName, start := fwdAsmStart ST AD today,
           finish := fwdAsmStart ST AD today + aDays }], ?_, hnames,
        Or.inr ⟨fwdAsmStart ST AD today, fwdAsmStart ST AD today + aDays, rfl⟩⟩
      rw [hunfold, if_pos hcond]
    · refine ⟨fwdRows ST components, [], ?_, hnames, Or.inl rfl⟩
      rw [hunfold, if_neg hcond, List.append_nil]

/-- Counterexample for C7 as stated: when the designated assembly component is
itself among the requested components, the forward scheduler returns two rows
named after it, not exactly one. -/
theorem forward_schedule_duplicate_assembly_cex :
    ¬ (((forward_schedule_with_custom_starts ["X"] [] (fun _ => some 0) (fun _ => 0)
        "X" 4 0).map ScheduleRow.composant).count "X" = 1) := by
  decide

theorem resolveComp_lookups (sbc : String → Option ℤ) (lead : String → ℤ) (today : ℤ)
    (st : FwdState) (comp : String) (dep_fins : List ℤ) :
    ∃ s : ℤ,
      (∀ k, lookupA (resolveComp sbc lead today st comp dep_fins).starts k =
        if k = comp then some s else lookupA st.starts k) ∧
      (∀ k, lookupA (resolveComp sbc lead today st comp dep_fins).finishes k =
        if k = comp then some (s + max 0 (lead comp)) else lookupA st.finishes k) ∧
      (sbc comp).getD today ≤ s ∧
      (∀ fd ∈ dep_fins, fd ≤ s) := by
  refine ⟨match dep_fins.max? with
    | some m => max ((sbc comp).getD today) m
    | Option.none => (sbc comp).getD today, ?_, ?_, ?_, ?_⟩
  · intro k
    show lookupA (updAssoc st.starts comp _) k = _
    rw [lookupA_updAssoc]
  · intro k
    show lookupA (updAssoc st.finishes comp _) k = _
    rw [lookupA_updAssoc]
  · cases hm : dep_fins.max? with
    | some m => simp [hm]
    | none => simp [hm]
  · intro fd hfd
    cases hm : dep_fins.max? with
    | some m =>
      simp only [hm]
      exact le_trans (le_max?_of_mem hfd hm) (le_max_right _ _)
    | none =>
      exfalso
      rw [List.max?_eq_none_iff] at hm
      rw [hm] at hfd
      exact absurd hfd (List.not_mem_nil fd)

theorem passFold_inv (DL : String → List String) (sbc : String → Option ℤ)
    (lead : String → ℤ) (today : ℤ) (components : List String) :
    ∀ (rs : List String) (st0 : FwdState) (keep0 : List String) (b0 : Bool),
      (keep0 ++ rs).Nodup →
      (∀ x ∈ keep0 ++ rs, x ∈ components) →
      (∀ x, (lookupA st0.finishes x).isSome ↔ (x ∈ components ∧ x ∉ keep0 ++ rs)) →
      (∀ x, (lookupA st0.starts x).isSome ↔ (lookupA st0.finishes x).isSome) →
      FwdInv DL sbc lead today st0 →
      (rs.foldl (passStep DL sbc lead today) (st0, keep0, b0)).2.1.Nodup ∧
      (∀ x ∈ (rs.foldl (passStep DL sbc lead today) (st0, keep0, b0)).2.1,
        x ∈ components) ∧
      (∀ x, (lookupA (rs.foldl (passStep DL sbc lead today) (st0, keep0, b0)).1.finishes
          x).isSome ↔
        (x ∈ components ∧ x ∉ (rs.foldl (passStep DL sbc lead today) (st0, keep0, b0)).2.1)) ∧
      (∀ x, (lookupA (rs.foldl (passStep DL sbc lead today) (st0, keep0, b0)).1.starts
          x).isSome ↔
        (lookupA (rs.foldl (passStep DL sbc lead today) (st0, keep0, b0)).1.finishes
          x).isSome) ∧
      FwdInv DL sbc lead today (rs.foldl (passStep DL sbc lead today) (st0, keep0, b0)).1 ∧
      ((∃ x ∈ rs, ∀ d ∈ DL x, (lookupA st0.finishes d).isSome) →
        (rs.foldl (passStep DL sbc lead today) (st0, keep0, b0)).2.2 = true) := by
  intro rs
  induction rs with
  | nil =>
    intro st0 keep0 b0 hnd hmem hkeys hsk hinv
    rw [List.append_nil] at hnd hmem hkeys
    refine ⟨hnd, hmem, hkeys, hsk, hinv, ?_⟩
    rintro ⟨x, hx, _⟩
    exact absurd hx (List.not_mem_nil x)
  | cons comp rs ih =>
    intro st0 keep0 b0 hnd hmem hkeys hsk hinv
    rw [List.foldl_cons]
    have hcompmem : comp ∈ components :=
      hmem comp (List.mem_append_right _ (List.mem_cons_self _ _))
    have hcompunres : ¬ (lookupA st0.finishes comp).isSome := by
      rw [hkeys]
      rintro ⟨_, habs⟩
      exact habs (List.mem_append_right _ (List.mem_cons_self _ _))
    by_cases hres : (DL comp).all (fun d => (lookupA st0.finishes d).isSome)
    · have hstep : passStep DL sbc lead today (st0, keep0, b0) comp =
          (resolveComp sbc lead today st0 comp
            ((DL comp).filterMap (fun d => lookupA st0.finishes d)), keep0, true) := by
        simp only [passStep]
        rw [if_pos hres]
      rw [hstep]
      obtain ⟨s, hls, hlf, hown, hdeps⟩ := resolveComp_lookups sbc lead today st0 comp
        ((DL comp).filterMap (fun d => lookupA st0.finishes d))
      set st0' := resolveComp sbc lead today st0 comp
        ((DL comp).filterMap (fun d => lookupA st0.finishes d)) with hst0'
      have halld : ∀ d ∈ DL comp, ∃ fd, lookupA st0.finishes d = some fd ∧ fd ≤ s := by
        intro d hd
        have hsome : (lookupA st0.finishes d).isSome := by
          have := List.all_eq_true.mp hres d hd
          simpa using this
        obtain ⟨fd, hfd⟩ := Option.isSome_iff_exists.mp hsome
        refine ⟨fd, hfd, ?_⟩
        apply hdeps
        exact List.mem_filterMap.mpr ⟨d, hd, by rw [hfd]⟩
      have hdne : ∀ d, (lookupA st0.finishes d).isSome → ¬ d = comp := by
        intro d hdsome hdc
        rw [hdc] at hdsome
        exact hcompunres hdsome
      have hndrest : (keep0 ++ rs).Nodup := by
        refine List.Nodup.sublist ?_ hnd
        exact (List.sublist_cons_self comp rs).append_left keep0
      have hcompnotin : comp ∉ keep0 ++ rs := by
        intro hmem2
        rcases List.mem_append.mp hmem2 with h | h
        · rw [List.nodup_append] at hnd
          exact hnd.2.2 h (List.mem_cons_self _ _)
        · rw [List.nodup_append] at hnd
          have := hnd.2.1
          rw [List.nodup_cons] at this
          exact this.1 h
      have hkeys' : ∀ x, (lookupA st0'.finishes x).isSome ↔
          (x ∈ components ∧ x ∉ keep0 ++ rs) := by
        intro x
        rw [hlf]
        by_cases hx : x = comp
        · simp only [if_pos hx]
          constructor
          · intro _
            rw [hx]
            exact ⟨hcompmem, hcompnotin⟩
          · intro _; rfl
        · rw [if_neg hx]
          rw [hkeys]
          constructor
          · rintro ⟨h1, h2⟩
            refine ⟨h1, ?_⟩
            intro hmem2
            apply h2
            rcases List.mem_append.mp hmem2 with h | h
            · exact List.mem_append_left _ h
            · exact List.mem_append_right _ (List.mem_cons_of_mem _ h)
          · rintro ⟨h1, h2⟩
            refine ⟨h1, ?_⟩
            intro hmem2
            apply h2
            rcases List.mem_append.mp hmem2 with h | h
            · exact List.mem_append_left _ h
            · rcases List.mem_cons.mp h with h3 | h3
              · exact absurd h3 hx
              · exact List.mem_append_right _ h3
      have hsk' : ∀ x, (lookupA st0'.starts x).isSome ↔
          (lookupA st0'.finishes x).isSome := by
        intro x
        rw [hls, hlf]
        by_cases hx : x = comp
        · simp [hx]
        · rw [if_neg hx, if_neg hx]
          exact hsk x
      have hinv' : FwdInv DL sbc lead today st0' := by
        intro c2 s2 hs2
        rw [hls] at hs2
        by_cases hc2 : c2 = comp
        · rw [if_pos hc2] at hs2
          have hs2' : s2 = s := by
            simpa using hs2.symm
          subst hs2'
          rw [hc2]
          refine ⟨hown, ?_, ?_⟩
          · rw [hlf, if_pos rfl]
          · intro d hd
            obtain ⟨fd, hfd, hle⟩ := halld d hd
            refine ⟨fd, ?_, hle⟩
            rw [hlf, if_neg (hdne d (by rw [hfd]; rfl))]
            exact hfd
        · rw [if_neg hc2] at hs2
          obtain ⟨h1, h2, h3⟩ := hinv c2 s2 hs2
          refine ⟨h1, ?_, ?_⟩
          · rw [hlf, if_neg hc2]
            exact h2
          · intro d hd
            obtain ⟨fd, hfd, hle⟩ := h3 d hd
            refine ⟨fd, ?_, hle⟩
            rw [hlf, if_neg (hdne d (by rw [hfd]; rfl))]
            exact hfd
      obtain ⟨c1, c2, c3, c4, c5, _⟩ := ih st0' keep0 true hndrest
        (fun x hx => hmem x (by
          rcases List.mem_append.mp hx with h | h
          · exact List.mem_append_left _ h
          · exact List.mem_append_right _ (List.mem_cons_of_mem _ h)))
        hkeys' hsk' hinv'
      exact ⟨c1, c2, c3, c4, c5,
        fun _ => (passFold_spec DL sbc lead today rs st0' keep0 true).2.1 rfl⟩
    · have hstep : passStep DL sbc lead today (st0, keep0, b0) comp =
          (st0, keep0 ++ [comp], b0) := by
        simp only [passStep]
        rw [if_neg hres]
      rw [hstep]
      have hassoc : (keep0 ++ [comp]) ++ rs = keep0 ++ comp :: rs := by simp
      have hnd2 : ((keep0 ++ [comp]) ++ rs).Nodup := by rw [hassoc]; exact hnd
      have hmem2 : ∀ x ∈ (keep0 ++ [comp]) ++ rs, x ∈ components := by
        rw [hassoc]; exact hmem
      have hkeys2 : ∀ x, (lookupA st0.finishes x).isSome ↔
          (x ∈ components ∧ x ∉ (keep0 ++ [comp]) ++ rs) := by
        rw [hassoc]; exact hkeys
      obtain ⟨c1, c2, c3, c4, c5, c6⟩ := ih st0 (keep0 ++ [comp]) b0 hnd2 hmem2
        hkeys2 hsk hinv
      refine ⟨c1, c2, c3, c4, c5, ?_⟩
      rintro ⟨x, hx, hxall⟩
      apply c6
      rcases List.mem_cons.mp hx with h | h
      · exfalso
        apply hres
        rw [List.all_eq_true]
        intro d hd
        have := hxall d (by rw [h]; exact hd)
        simpa using this
      · exact ⟨x, h, hxall⟩

theorem fwdLoop_inv (DL : String → List String) (sbc : String → Option ℤ)
    (lead : String → ℤ) (today : ℤ) (components : List String) (rank : String → ℕ)
    (hrank : ∀ c d, d ∈ DL c → rank d < rank c)
    (hDLc : ∀ c d, d ∈ DL c → d ∈ components) :
    ∀ (fuel : ℕ) (st : FwdState) (rem : List String),
      rem.Nodup →
      (∀ x ∈ rem, x ∈ components) →
      (∀ x, (lookupA st.finishes x).isSome ↔ (x ∈ components ∧ x ∉ rem)) →
      (∀ x, (lookupA st.starts x).isSome ↔ (lookupA st.finishes x).isSome) →
      FwdInv DL sbc lead today st →
      (rem = [] ∨ rem.length + 1 ≤ fuel) →
      (∀ x, (lookupA (fwdLoop DL sbc lead today fuel st rem).finishes x).isSome ↔
        x ∈ components) ∧
      (∀ x, (lookupA (fwdLoop DL sbc lead today fuel st rem).starts x).isSome ↔
        (lookupA (fwdLoop DL sbc lead today fuel st rem).finishes x).isSome) ∧
      FwdInv DL sbc lead today (fwdLoop DL sbc lead today fuel st rem) := by
  intro fuel
  induction fuel with
  | zero =>
    intro st rem hnd hmem hkeys hsk hinv hfuel
    have hrem : rem = [] := by
      rcases hfuel with h | h
      · exact h
      · omega
    subst hrem
    refine ⟨?_, hsk, hinv⟩
    intro x
    show (lookupA st.finishes x).isSome = true ↔ x ∈ components
    rw [hkeys]
    simp
  | succ b ih =>
    intro st rem hnd hmem hkeys hsk hinv hfuel
    by_cases hrem : rem = []
    · have hres : fwdLoop DL sbc lead today (b + 1) st rem = st := by
        rw [fwdLoop, if_pos hrem]
      rw [hres]
      refine ⟨?_, hsk, hinv⟩
      intro x
      rw [hkeys, hrem]
      simp
    · have hres : fwdLoop DL sbc lead today (b + 1) st rem =
          (if (passOnce DL sbc lead today st rem).2.2 then
            fwdLoop DL sbc lead today b (passOnce DL sbc lead today st rem).1
              (passOnce DL sbc lead today st rem).2.1
          else forceResolve DL sbc lead today (passOnce DL sbc lead today st rem).1
            (passOnce DL sbc lead today st rem).2.1) := by
        rw [fwdLoop, if_neg hrem]
      rw [hres]
      have hkeys0 : ∀ x, (lookupA st.finishes x).isSome ↔
          (x ∈ components ∧ x ∉ [] ++ rem) := by
        intro x
        rw [List.nil_append]
        exact hkeys x
      obtain ⟨c1, c2, c3, c4, c5, c6⟩ := passFold_inv DL sbc lead today components rem st
        [] false (by rw [List.nil_append]; exact hnd)
        (by rw [List.nil_append]; exact hmem) hkeys0 hsk hinv
      -- progress is guaranteed: the remaining component of minimal rank has all
      -- of its selected dependencies already finished
      have hprogress : (List.foldl (passStep DL sbc lead today) (st, [], false) rem).2.2
          = true := by
        apply c6
        obtain ⟨x, hx, hxmin⟩ := exists_min_rank rank rem hrem
        refine ⟨x, hx, ?_⟩
        intro d hd
        rw [hkeys]
        refine ⟨hDLc x d hd, ?_⟩
        intro hdrem
        have h1 := hxmin d hdrem
        have h2 := hrank x d hd
        omega
      have hprogress2 : (passOnce DL sbc lead today st rem).2.2 = true := hprogress
      rw [if_pos hprogress2]
      obtain ⟨e1, _, e3, _⟩ := passFold_spec DL sbc lead today rem st [] false
      apply ih
      · exact c1
      · exact c2
      · exact c3
      · exact c4
      · exact c5
      · right
        rw [hprogress] at e3
        simp at e3
        have hlen : rem.length + 1 ≤ b + 1 := by
          rcases hfuel with h | h
          · exact absurd h hrem
          · exact h
        show (List.foldl (passStep DL sbc lead today) (st, [], false) rem).2.1.length
          + 1 ≤ b
        omega

/-- C6 (amended): on a dependency map whose restriction to the selection is
acyclic (witnessed by a rank function decreasing along dependency edges),
every row of the forward schedule other than the appended assembly row
satisfies: start ≥ the component's own order date (today when absent),
finish = start + max 0 leadDays, and start ≥ the finish of each selected
direct dependency (looked up as the first output row bearing its name). -/
theorem forward_schedule_constraints (components : List String)
    (deps_map : List (String × List String)) (sbc : String → Option ℤ)
    (lead : String → ℤ) (aName : String) (aDays : ℤ) (today : ℤ) (rank : String → ℕ)
    (hrank : ∀ c d, d ∈ (depsOf deps_map c).filter (fun x => decide (x ∈ components)) →
      rank d < rank c) :
    ∀ r ∈ forward_schedule_with_custom_starts components deps_map sbc lead aName
        aDays today,
      r.composant ≠ aName →
      (sbc r.composant).getD today ≤ r.start ∧
      r.finish = r.start + max 0 (lead r.composant) ∧
      (∀ d ∈ (depsOf deps_map r.composant).filter (fun x => decide (x ∈ components)),
        ∃ rd, (forward_schedule_with_custom_starts components deps_map sbc lead aName
            aDays today).find? (fun rr => rr.composant == d) = some rd ∧
          rd.finish ≤ r.start) := by
  set DL := fun c => (depsOf deps_map c).filter (fun d => decide (d ∈ components))
    with hDL
  have hDLc : ∀ c d, d ∈ DL c → d ∈ components := by
    intro c d hd
    rw [hDL] at hd
    have := List.mem_filter.mp hd
    simpa using this.2
  set ST := fwdLoop DL sbc lead today (components.length * 3) ⟨[], []⟩ components.dedup
    with hST
  have hfuel : components.dedup = [] ∨
      components.dedup.length + 1 ≤ components.length * 3 := by
    cases hcs : components with
    | nil => left; rfl
    | cons c cs =>
      right
      have h1 : (c :: cs).dedup.length ≤ (c :: cs).length :=
        (List.dedup_sublist _).length_le
      have h2 : 1 ≤ (c :: cs).length := by simp
      omega
  obtain ⟨f1, f2, f3⟩ := fwdLoop_inv DL sbc lead today components rank hrank hDLc
    (components.length * 3) ⟨[], []⟩ components.dedup (List.nodup_dedup _)
    (fun x hx => List.mem_dedup.mp hx)
    (by
      intro x
      show (lookupA [] x).isSome = true ↔ _
      simp [lookupA, List.mem_dedup])
    (by
      intro x
      show (lookupA [] x).isSome = true ↔ (lookupA [] x).isSome = true
      rfl)
    (by
      intro comp s h
      exact absurd h (by simp [lookupA]))
    hfuel
  have hall : ∀ c ∈ components,
      (lookupA ST.starts c).isSome ∧ (lookupA ST.finishes c).isSome := by
    intro c hc
    have hf : (lookupA ST.finishes c).isSome := (f1 c).mpr hc
    exact ⟨(f2 c).mpr hf, hf⟩
  have hrows := fwdRows_eq_map ST components hall
  have hfind0 : ∀ d ∈ components,
      (fwdRows ST components).find? (fun rr => rr.composant == d) = some
        ({ composant := d, start := (lookupA ST.starts d).getD 0,
           finish := (lookupA ST.finishes d).getD 0 } : ScheduleRow) := by
    intro d hd
    rw [hrows]
    exact find?_map_rows _ (fun c => rfl) components d hd
  set AD := (depsOf deps_map aName).filter (fun d => decide (d ∈ components)) with hAD
  have hunfold : forward_schedule_with_custom_starts components deps_map sbc lead aName
      aDays today =
      (if aName ∈ components ∨
          (AD ≠ [] ∧ AD.all (fun d => (lookupA ST.finishes d).isSome)) then
        fwdRows ST components ++
          [{ composant := aName, start := fwdAsmStart ST AD today,
             finish := fwdAsmStart ST AD today + aDays }]
      else fwdRows ST components) := rfl
  have hfindFull : ∀ d ∈ components,
      (forward_schedule_with_custom_starts components deps_map sbc lead aName aDays
        today).find? (fun rr => rr.composant == d) = some
        ({ composant := d, start := (lookupA ST.starts d).getD 0,
           finish := (lookupA ST.finishes d).getD 0 } : ScheduleRow) := by
    intro d hd
    rw [hunfold]
    by_cases hcond : aName ∈ components ∨
        (AD ≠ [] ∧ AD.all (fun d => (lookupA ST.finishes d).isSome))
    · rw [if_pos hcond, List.find?_append, hfind0 d hd]
      rfl
    · rw [if_neg hcond]
      exact hfind0 d hd
  intro r hr hne
  have hrmem : r ∈ fwdRows ST components := by
    rw [hunfold] at hr
    by_cases hcond : aName ∈ components ∨
        (AD ≠ [] ∧ AD.all (fun d => (lookupA ST.finishes d).isSome))
    · rw [if_pos hcond] at hr
      rcases List.mem_append.mp hr with h | h
      · exact h
      · exfalso
        have : r.composant = aName := by
          have h2 := List.mem_singleton.mp h
          rw [h2]
        exact hne this
    · rw [if_neg hcond] at hr
      exact hr
  rw [hrows] at hrmem
  obtain ⟨c, hc, hrc⟩ := List.mem_map.mp hrmem
  obtain ⟨hs, hf⟩ := hall c hc
  obtain ⟨s, hs2⟩ := Option.isSome_iff_exists.mp hs
  obtain ⟨f, hf2⟩ := Option.isSome_iff_exists.mp hf
  have hcomp : r.composant = c := by rw [← hrc]
  have hstart : r.start = s := by rw [← hrc]; show (lookupA ST.starts c).getD 0 = s; rw [hs2]; rfl
  have hfinish : r.finish = f := by rw [← hrc]; show (lookupA ST.finishes c).getD 0 = f; rw [hf2]; rfl
  obtain ⟨hown, hfin, hdeps⟩ := f3 c s hs2
  have hfval : f = s + max 0 (lead c) := by
    rw [hfin] at hf2
    simpa using hf2.symm
  refine ⟨?_, ?_, ?_⟩
  · rw [hcomp, hstart]
    exact hown
  · rw [hfinish, hstart, hcomp, hfval]
  · intro d hd
    rw [hcomp] at hd
    obtain ⟨fd, hfd, hle⟩ := hdeps d hd
    have hdc : d ∈ components := hDLc c d hd
    refine ⟨_, hfindFull d hdc, ?_⟩
    show (lookupA ST.finishes d).getD 0 ≤ r.start
    rw [hfd, hstart]
    exact hle

theorem depsOf_fwdEx (c : String) :
    depsOf dmFwdEx c = if "Q" = c then ["P"] else [] := by
  by_cases h : "Q" = c
  · rw [if_pos h]
    simp only [depsOf, dmFwdEx, List.find?]
    have : (("Q", ["P"]).1 == c) = true := by
      simp only [beq_iff_eq]
      exact h
    rw [this]
  · rw [if_neg h]
    simp only [depsOf, dmFwdEx, List.find?]
    have : (("Q", ["P"]).1 == c) = false := by
      simp only [beq_eq_false_iff_ne, ne_eq]
      exact h
    rw [this]

theorem rank_fwdEx : ∀ c d,
    d ∈ (depsOf dmFwdEx c).filter (fun x => decide (x ∈ ["P", "Q"])) →
    rankFwdEx d < rankFwdEx c := by
  intro c d hd
  rw [depsOf_fwdEx] at hd
  by_cases h : "Q" = c
  · rw [if_pos h] at hd
    have : d = "P" := by
      have := List.mem_filter.mp hd
      simpa using this.1
    rw [this, ← h]
    decide
  · rw [if_neg h] at hd
    simp at hd

/-- Witness for C6 at the chain `Q depends on P` with order dates P↦3, Q↦1
and lead days P↦2, Q↦4: P runs 3→5 and Q runs 5→9, so Q starts at its
dependency's finish, later than its own order date 1. -/
theorem forward_schedule_constraints_witness :
    (∀ r ∈ forward_schedule_with_custom_starts ["P", "Q"] dmFwdEx sbcFwdEx leadFwdEx
        "ASM" 5 0,
      r.composant ≠ "ASM" →
      (sbcFwdEx r.composant).getD 0 ≤ r.start ∧
      r.finish = r.start + max 0 (leadFwdEx r.composant) ∧
      (∀ d ∈ (depsOf dmFwdEx r.composant).filter (fun x => decide (x ∈ ["P", "Q"])),
        ∃ rd, (forward_schedule_with_custom_starts ["P", "Q"] dmFwdEx sbcFwdEx leadFwdEx
            "ASM" 5 0).find? (fun rr => rr.composant == d) = some rd ∧
          rd.finish ≤ r.start)) ∧
    forward_schedule_with_custom_starts ["P", "Q"] dmFwdEx sbcFwdEx leadFwdEx "ASM" 5 0 =
      [{ composant := "P", start := 3, finish := 5 },
       { composant := "Q", start := 5, finish := 9 }] :=
  ⟨forward_schedule_constraints ["P", "Q"] dmFwdEx sbcFwdEx leadFwdEx "ASM" 5 0
      rankFwdEx rank_fwdEx,
    by decide⟩

/-- Counterexample for C6 as stated: on the mutually cyclic map A↔B the
force-resolved component A starts at its order date 0 while its dependency B
finishes at 20, violating `start(component) ≥ finish(dependency)`. -/
theorem forward_schedule_cycle_cex :
    ¬ (∀ r ∈ forward_schedule_with_custom_starts ["A", "B"] dmCycleEx (fun _ => some 0)
        (fun _ => 10) "ASM" 5 0,
      ∀ d ∈ (depsOf dmCycleEx r.composant).filter (fun x => decide (x ∈ ["A", "B"])),
        ∀ rd ∈ forward_schedule_with_custom_starts ["A", "B"] dmCycleEx (fun _ => some 0)
            (fun _ => 10) "ASM" 5 0,
          rd.composant = d → rd.finish ≤ r.start) := by
  decide

theorem dmW_cons (p : String × List String) (dm : List (String × List String))
    (vis : List String) :
    dmW (p :: dm) vis = (if p.1 ∈ vis then 0 else p.2.length) + dmW dm vis := by
  by_cases hp : p.1 ∈ vis
  · rw [dmW, List.filter_cons_of_neg (by simpa using hp), if_pos hp, Nat.zero_add]
    rfl
  · rw [dmW, List.filter_cons_of_pos (by simpa using hp), if_neg hp]
    rw [List.map_cons, List.sum_cons]
    rfl

theorem dmW_mono (dm : List (String × List String)) (vis vis2 : List String)
    (h : ∀ x, x ∈ vis → x ∈ vis2) :
    dmW dm vis2 ≤ dmW dm vis := by
  induction dm with
  | nil => exact le_rfl
  | cons p dm ih =>
    rw [dmW_cons, dmW_cons]
    by_cases hp : p.1 ∈ vis
    · rw [if_pos hp, if_pos (h _ hp)]
      simpa using ih
    · rw [if_neg hp]
      by_cases hp2 : p.1 ∈ vis2
      · rw [if_pos hp2]
        omega
      · rw [if_neg hp2]
        omega

theorem dmW_visit (dm : List (String × List String)) (comp : String)
    (vis : List String) (hc : comp ∉ vis) :
    dmW dm (comp :: vis) + (depsOf dm comp).length ≤ dmW dm vis := by
  induction dm with
  | nil =>
    simp [dmW, depsOf]
  | cons p dm ih =>
    rw [dmW_cons, dmW_cons]
    by_cases hp : p.1 = comp
    · have h1 : p.1 ∈ comp :: vis := by rw [hp]; exact List.mem_cons_self _ _
      have h2 : p.1 ∉ vis := by rw [hp]; exact hc
      rw [if_pos h1, if_neg h2]
      have hdeps : depsOf (p :: dm) comp = p.2 := by
        rw [depsOf, List.find?_cons_of_pos _ (by simpa using hp)]
      rw [hdeps]
      have := dmW_mono dm vis (comp :: vis) (fun x hx => List.mem_cons_of_mem _ hx)
      omega
    · have hdeps : depsOf (p :: dm) comp = depsOf dm comp := by
        rw [depsOf, List.find?_cons_of_neg _ (by simpa using hp)]
        rfl
      rw [hdeps]
      by_cases hp2 : p.1 ∈ vis
      · rw [if_pos hp2, if_pos (List.mem_cons_of_mem _ hp2)]
        simpa using ih
      · rw [if_neg hp2, if_neg (by
          intro hmem
          rcases List.mem_cons.mp hmem with h | h
          · exact hp h
          · exact hp2 h)]
        omega

theorem getAllDeps_bound (dm : List (String × List String)) :
    ∀ (f : ℕ) (vis : List String) (comp : String),
      (getAllDeps dm f vis comp).2.length + dmW dm (getAllDeps dm f vis comp).1 ≤
        dmW dm vis := by
  intro f
  induction f with
  | zero =>
    intro vis comp
    simp [getAllDeps]
  | succ f ih =>
    intro vis comp
    by_cases hc : comp ∈ vis
    · have hres : getAllDeps dm (f + 1) vis comp = (vis, []) := by
        rw [getAllDeps, if_pos hc]
      rw [hres]
      simp
    · have hres : getAllDeps dm (f + 1) vis comp =
          (depsOf dm comp).foldl
            (fun acc dep =>
              ((getAllDeps dm f acc.1 dep).1,
                acc.2 ++ [dep] ++ (getAllDeps dm f acc.1 dep).2))
            (comp :: vis, []) := by
        rw [getAllDeps, if_neg hc]
      rw [hres]
      have hfold : ∀ (ds : List String) (st : List String × List String),
          ((ds.foldl (fun acc dep =>
              ((getAllDeps dm f acc.1 dep).1,
                acc.2 ++ [dep] ++ (getAllDeps dm f acc.1 dep).2)) st).2.length +
            dmW dm (ds.foldl (fun acc dep =>
              ((getAllDeps dm f acc.1 dep).1,
                acc.2 ++ [dep] ++ (getAllDeps dm f acc.1 dep).2)) st).1) ≤
          st.2.length + ds.length + dmW dm st.1 := by
        intro ds
        induction ds with
        | nil =>
          intro st
          simp
        | cons dep ds ihd =>
          intro st
          rw [List.foldl_cons]
          have hstep := ih st.1 dep
          have hrec := ihd ((getAllDeps dm f st.1 dep).1,
            st.2 ++ [dep] ++ (getAllDeps dm f st.1 dep).2)
          simp only [List.length_append, List.length_cons, List.length_nil] at hrec ⊢
          omega
      have hmain := hfold (depsOf dm comp) (comp :: vis, [])
      have hvisit := dmW_visit dm comp vis hc
      simp only [List.length_nil] at hmain
      omega

/-- C9 (amended): the transitive-dependency computation is cycle-safe and
bounded — the visited-set guard expands each component at most once, so on
every dependency map (circular and self-referential ones included) each
result list has length at most the total size of the dependency map. The
result is a list, not a set: it can contain the same dependency name more
than once. -/
theorem resolve_dependencies_bounded (components : List String)
    (deps_map : List (String × List String)) :
    ∀ p ∈ resolve_dependencies components deps_map, p.2.length ≤ dmSize deps_map := by
  have hsize : ∀ (dm : List (String × List String)) (a : ℕ),
      dm.foldl (fun a p => a + 1 + p.2.length) a =
        a + dm.length + (dm.map (fun p => p.2.length)).sum := by
    intro dm
    induction dm with
    | nil => intro a; simp
    | cons p dm ih =>
      intro a
      rw [List.foldl_cons, ih]
      simp
      omega
  have hW : dmW deps_map [] ≤ dmSize deps_map := by
    rw [dmW, dmSize, hsize]
    have : deps_map.filter (fun p => decide (p.1 ∉ ([] : List String))) = deps_map := by
      apply List.filter_eq_self.mpr
      intro p _
      simp
    rw [this]
    omega
  intro p hp
  obtain ⟨c, _, hpc⟩ := List.mem_map.mp hp
  have hlen : p.2.length = (getAllDeps deps_map (dmSize deps_map + 2) [] c).2.length := by
    rw [← hpc]
  rw [hlen]
  have := getAllDeps_bound deps_map (dmSize deps_map + 2) [] c
  omega

/-- Witness for C9: on the diamond map, component C's transitive dependency
list is ["A", "D", "B", "D"], whose length 4 is within the bound. -/
theorem resolve_dependencies_bounded_witness :
    (("C", ["A", "D", "B", "D"]) ∈ resolve_dependencies ["C"] dmDiamondEx) ∧
    (("C", ["A", "D", "B", "D"]) : String × List String).2.length ≤ dmSize dmDiamondEx :=
  ⟨by decide,
    resolve_dependencies_bounded ["C"] dmDiamondEx ("C", ["A", "D", "B", "D"]) (by decide)⟩

/-- Counterexample for C9 as stated: the result is not deduplicated — on the
diamond map C→{A,B}, A→D, B→D the list for C contains "D" twice. -/
theorem resolve_dependencies_not_dedup_cex :
    ¬ (∀ p ∈ resolve_dependencies ["C"] dmDiamondEx, p.2.Nodup) := by
  decide

end Prev
